import Mathlib

/-!
# imgur: upload / list handlers and the BasicAuth validator of `main.go`

A shallow embedding of `src/main.go`.

* The handlers talk to the operating system and to libraries.  Every call whose
  result the environment decides (`uuid.New`, `time.Now`, `file.Open`,
  `os.MkdirAll`, `os.Create`, `io.Copy`, `ioutil.WriteFile`, `ioutil.ReadDir`)
  takes its result from an explicit environment argument; the embedding then
  does with that result exactly what the Go code does with it.
* Library functions that are pure (`time.Time.Format`, `json.MarshalIndent`,
  `sort.Slice`) are arguments of the handler that uses them.  `goSortSlice` is
  the `sort.Slice` of Go 1.19 and later, as far as its first partition.
* A `FileHeader` is what `c.MultipartForm()` hands to `upload`; `fileHeaderOf`
  is how `mime/multipart` (Go 1.17 and later) makes it of the part the client
  sent.
* Regular files are tracked by path, open handles are tracked as a list, and the
  `defer` statements of `upload` are an explicit stack that runs when `upload`
  returns.  Directories are not tracked: `os.MkdirAll` only yields an outcome.
* A Go slice whose nil-ness can be observed (the body handed to `c.JSON`, which
  encodes a nil slice as `null` and an empty one as `[]`) is a `GoSlice`; any
  other slice is its sequence of elements.
-/

namespace Imgur

/-! ## Basic types -/

/-- A byte of file content. -/
abbrev Byte := Nat

/-- A non-nil Go `error`, by its message. -/
abbrev GoError := String

/-- An instant (`time.Time`), as nanoseconds since the epoch. -/
structure Time where
  unixNano : Int
deriving DecidableEq, Repr

/-- Go `t.Before(u)`: the instant `t` is strictly earlier than `u`. -/
def Time.Before (t u : Time) : Bool := decide (t.unixNano < u.unixNano)

/-- Go `type Image struct`. -/
structure Image where
  Name : String
  Time : Time
  Size : Int
  IsDirectory : Bool
deriving DecidableEq, Repr

/-- Go `type Metadata struct`. -/
structure Metadata where
  FileName : String
  CreateDate : String
  FileSize : Int
deriving DecidableEq, Repr

/-- The part of `multipart.FileHeader` that `upload` reads: the two exported
fields `Filename` and `Size`, and the bytes that the stream returned by
`Open()` delivers.  The bytes are an unexported field, so a header that has any
was made by `mime/multipart` itself, which sets `Size` to their number when it
parses the form: that is `size_eq`.  What `mime/multipart` puts into `Filename`
is `fileHeaderOf` below. -/
structure FileHeader where
  Filename : String
  Size : Int
  content : List Byte
  size_eq : Size = (content.length : Int)
deriving DecidableEq, Repr

/-- A file part as the client sent it: the `filename` parameter of its
`Content-Disposition` header, and its bytes. -/
structure ClientPart where
  filename : String
  content : List Byte
deriving DecidableEq, Repr

/-- Go `filepath.Base(path)` where the separator is `/`: the last element of the
path, trailing slashes removed first; `.` for the empty path and `/` for a path
of slashes only. -/
def Base (path : String) : String :=
  if path = "" then "."
  else
    -- strip trailing slashes
    let stripped := (path.data.reverse.dropWhile (fun ch => ch = '/')).reverse
    -- find the last element
    let last := (stripped.reverse.takeWhile (fun ch => ch ≠ '/')).reverse
    -- if empty now, it had only slashes
    if last = [] then "/" else ⟨last⟩

/-- The `FileHeader` that `c.MultipartForm()` hands to `upload` for a file part:
`mime/multipart` (Go 1.17 and later) sets `Filename` to `p.FileName()`, which is
`filepath.Base` of the client's filename, and `Size` to the number of bytes. -/
def fileHeaderOf (part : ClientPart) : FileHeader :=
  { Filename := Base part.filename
    Size := part.content.length
    content := part.content
    size_eq := rfl }

/-- Go `multipart.Form`, its `File` map (a missing key gives the nil slice). -/
structure Form where
  File : String → List FileHeader

/-- The part of `echo.Context` that `upload` uses: the outcome of
`c.MultipartForm()`. -/
structure Context where
  MultipartForm : Except GoError Form

/-- A Go slice: the nil slice, or a slice that is not nil, with its elements. -/
inductive GoSlice (α : Type) where
  | nil
  | mk (elems : List α)
deriving DecidableEq, Repr

/-- The elements of a slice; the nil slice has none. -/
def GoSlice.elems {α : Type} : GoSlice α → List α
  | .nil => []
  | .mk xs => xs

/-- Go `append(s, x)`: never nil. -/
def GoSlice.append {α : Type} (s : GoSlice α) (x : α) : GoSlice α :=
  .mk (s.elems ++ [x])

/-- What `c.JSON(status, body)` sends. -/
structure Response (α : Type) where
  status : Nat
  body : α
deriving DecidableEq, Repr

/-- Go `http.StatusOK`. -/
def StatusOK : Nat := 200

/-! ## `github.com/google/uuid` and `strings` -/

/-- A `uuid.UUID` (16 bytes), read as a big-endian number; only the low 128 bits
are rendered. -/
structure UUID where
  val : Nat
deriving DecidableEq, Repr

/-- The sixteen lowercase hexadecimal digits. -/
def hexDigits : List Char :=
  ['0', '1', '2', '3', '4', '5', '6', '7', '8', '9', 'a', 'b', 'c', 'd', 'e', 'f']

/-- The hexadecimal digit of a nibble. -/
def hexDigit (d : Nat) : Char := hexDigits.getD (d % 16) '0'

/-- Hex digits number `start .. start + len - 1` (of 32, most significant first)
of a UUID. -/
def UUID.hex (u : UUID) (start len : Nat) : List Char :=
  (List.range len).map (fun i => hexDigit (u.val / 16 ^ (31 - (start + i)) % 16))

/-- Go `id.String()`: the canonical form
`xxxxxxxx-xxxx-xxxx-xxxx-xxxxxxxxxxxx`. -/
def UUID.String (u : UUID) : String :=
  ⟨u.hex 0 8 ++ '-' :: u.hex 8 4 ++ '-' :: u.hex 12 4 ++ '-' :: u.hex 16 4 ++ '-' :: u.hex 20 12⟩

/-- Go `strings.TrimSuffix(s, suffix)`: `s` without the trailing `suffix`, or
`s` itself when it does not end in `suffix`. -/
def TrimSuffix (s suffix : String) : String :=
  if suffix.data <:+ s.data then ⟨s.data.take (s.data.length - suffix.data.length)⟩ else s

/-- Go `fmt.Sprintf("%s/%s", a, b)`. -/
def sprintfPath (a b : String) : String := a ++ "/" ++ b

/-- Go `fmt.Sprintf("%s/%s.json", a, b)`. -/
def sprintfJson (a b : String) : String := a ++ "/" ++ b ++ ".json"

/-! ## The world `upload` acts on -/

/-- A stream opened by `upload` for the part at a given index of the batch. -/
inductive Handle where
  /-- The `multipart.File` returned by `file.Open()`. -/
  | src (part : Nat)
  /-- The `*os.File` returned by `os.Create`. -/
  | dst (part : Nat)
deriving DecidableEq, Repr

/-- Regular files by path, and the handles that are currently open. -/
structure World where
  fs : String → Option (List Byte)
  handles : List Handle

/-- The file at `path` now holds `data` (created if absent). -/
def World.put (w : World) (path : String) (data : List Byte) : World :=
  { w with fs := fun q => if q = path then some data else w.fs q }

/-- A handle has been opened. -/
def World.opened (w : World) (h : Handle) : World :=
  { w with handles := h :: w.handles }

/-- Go `h.Close()`. -/
def World.close (w : World) (h : Handle) : World :=
  { w with handles := w.handles.erase h }

/-- What the environment decides while one part is processed. -/
structure PartEnv where
  /-- The result of `uuid.New()`. -/
  id : UUID
  /-- The result of `time.Now()`. -/
  now : Time
  /-- The error of `file.Open()`, if any. -/
  openErr : Option GoError
  /-- The error of `os.MkdirAll(storage, os.ModePerm)`, if any. -/
  mkdirErr : Option GoError
  /-- The error of `os.Create`, if any. -/
  createErr : Option GoError
  /-- The error of `io.Copy`, if any, and how many bytes had reached the
  destination by then. -/
  copyErr : Option (Nat × GoError)
  /-- The error of `ioutil.WriteFile`, if any, and how far it got: `none` when
  the file could not be opened, `some n` when it was created or truncated and
  `n` bytes were written. -/
  writeErr : Option (Option Nat × GoError)

/-- The four operations whose error `upload` checks all succeed. -/
def PartEnv.ok (e : PartEnv) : Prop :=
  e.openErr = none ∧ e.createErr = none ∧ e.copyErr = none ∧ e.writeErr = none

instance (e : PartEnv) : Decidable e.ok := by
  unfold PartEnv.ok; infer_instance

/-- The pure library functions `upload` calls. -/
structure Lib where
  /-- Go `t.Format(layout)`. -/
  Format : Time → String → String
  /-- Go `json.MarshalIndent(v, prefix, indent)` on a `Metadata`; the error it
  also returns is discarded by `upload`. -/
  MarshalIndent : Metadata → String → String → List Byte

/-- The local state of a running `upload`: the world, the slice `links`, and
the stack of deferred `Close` calls (latest first). -/
structure UploadState where
  world : World
  links : GoSlice String
  deferred : List Handle

/-- How one iteration of the loop of `upload` ends. -/
inductive Step where
  /-- The body ran to its end; the loop goes on. -/
  | next (s : UploadState)
  /-- The body executed `return err`. -/
  | ret (err : GoError) (s : UploadState)

/-- The name under which a part is stored:
`strings.TrimSuffix(id.String(), "\n")`. -/
def fileName (id : UUID) : String := TrimSuffix id.String "\n"

/-- The body of `for _, file := range files` in `upload`, for the part at
index `i`. -/
def uploadPart (lib : Lib) (storage : String) (i : Nat) (file : FileHeader) (e : PartEnv)
    (s : UploadState) : Step :=
  let id := e.id
  let now := e.now
  -- src, err := file.Open()
  match e.openErr with
  | some err => .ret err s
  | none =>
    -- defer src.Close()
    let s1 : UploadState :=
      { s with world := s.world.opened (.src i), deferred := .src i :: s.deferred }
    -- os.MkdirAll(storage, os.ModePerm): both results are dropped
    let filename := fileName id
    -- dst, err := os.Create(fmt.Sprintf("%s/%s", storage, filename))
    match e.createErr with
    | some err => .ret err s1
    | none =>
      -- defer dst.Close()
      let s2 : UploadState :=
        { s1 with
          world := (s1.world.put (sprintfPath storage filename) []).opened (.dst i)
          deferred := .dst i :: s1.deferred }
      -- io.Copy(dst, src)
      match e.copyErr with
      | some (n, err) =>
        .ret err { s2 with world := s2.world.put (sprintfPath storage filename) (file.content.take n) }
      | none =>
        let s3 : UploadState :=
          { s2 with world := s2.world.put (sprintfPath storage filename) file.content }
        let meta : Metadata :=
          { FileName := file.Filename
            FileSize := file.Size
            CreateDate := lib.Format now "2006/01/02 15:04:05" }
        let metaFile := lib.MarshalIndent meta "" " "
        -- ioutil.WriteFile(fmt.Sprintf("%s/%s.json", storage, filename), metaFile, 0644)
        match e.writeErr with
        | some (none, err) => .ret err s3
        | some (some n, err) =>
          .ret err { s3 with world := s3.world.put (sprintfJson storage filename) (metaFile.take n) }
        | none =>
          -- links = append(links, fmt.Sprintf("%s/%s", storage, filename))
          .next
            { s3 with
              world := s3.world.put (sprintfJson storage filename) metaFile
              links := s3.links.append (sprintfPath storage filename) }

/-- The state in which an iteration ends, whichever way it ends. -/
def Step.state : Step → UploadState
  | .next s => s
  | .ret _ s => s

/-- The record `upload` builds for a part: the `Metadata{...}` literal. -/
def recordOf (lib : Lib) (file : FileHeader) (now : Time) : Metadata :=
  { FileName := file.Filename
    FileSize := file.Size
    CreateDate := lib.Format now "2006/01/02 15:04:05" }

/-- The bytes `upload` hands to `ioutil.WriteFile` for a part. -/
def recordBytes (lib : Lib) (file : FileHeader) (now : Time) : List Byte :=
  lib.MarshalIndent (recordOf lib file now) "" " "

/-- The loop of `upload` from the part at index `i` on. -/
def uploadLoop (lib : Lib) (storage : String) (env : Nat → PartEnv) :
    Nat → List FileHeader → UploadState → Step
  | _, [], s => .next s
  | i, file :: rest, s =>
    match uploadPart lib storage i file (env i) s with
    | .next s' => uploadLoop lib storage env (i + 1) rest s'
    | .ret err s' => .ret err s'

/-- The deferred `Close` calls run, latest first, when `upload` returns. -/
def runDeferred (w : World) : List Handle → World
  | [] => w
  | h :: hs => runDeferred (w.close h) hs

/-- The state in which `upload` enters its loop; `var links []string` is nil. -/
def UploadState.init (w : World) : UploadState :=
  { world := w, links := .nil, deferred := [] }

/-- What happens when `upload` returns from the loop: the deferred calls run,
and the caller gets the error of `return err`, or the answer of
`return c.JSON(http.StatusOK, links)`. -/
def uploadReturn : Step → Except GoError (Response (GoSlice String)) × World
  | .ret err s => (.error err, runDeferred s.world s.deferred)
  | .next s => (.ok { status := StatusOK, body := s.links }, runDeferred s.world s.deferred)

/-- Go `func upload(c echo.Context) error`, together with the world it leaves.
`.ok r` is `c.JSON(r.status, r.body)`; `.error err` is `return err`. -/
def upload (lib : Lib) (storage : String) (c : Context) (env : Nat → PartEnv) (w : World) :
    Except GoError (Response (GoSlice String)) × World :=
  match c.MultipartForm with
  | .error err => (.error err, w)
  | .ok form =>
    let files := form.File "files"
    uploadReturn (uploadLoop lib storage env 0 files (UploadState.init w))

/-! ## The listing handler -/

/-- The part of `os.FileInfo` that `list` reads. -/
structure FileInfo where
  Name : String
  ModTime : Time
  Size : Int
  IsDir : Bool
deriving DecidableEq, Repr

/-- The `less` closure `list` passes to `sort.Slice`:
`files[i].ModTime().Before(files[j].ModTime())`, on the two elements. -/
def lessModTime (a b : FileInfo) : Bool := a.ModTime.Before b.ModTime

/-- The literal `Image{Name: f.Name(), Time: f.ModTime(), Size: f.Size(), IsDirectory: f.IsDir()}`. -/
def imageOf (f : FileInfo) : Image :=
  { Name := f.Name, Time := f.ModTime, Size := f.Size, IsDirectory := f.IsDir }

/-- Go `func list(c echo.Context) error`.  `readDir` is what `ioutil.ReadDir`
answers for a directory name; `sortSlice files less` is the content of `files`
after `sort.Slice(files, less)`, with `less` given on elements. -/
def list (sortSlice : List FileInfo → (FileInfo → FileInfo → Bool) → List FileInfo)
    (readDir : String → Except GoError (List FileInfo)) (storage : String) :
    Except GoError (Response (GoSlice Image)) :=
  match readDir storage with
  | .error err => .error err
  | .ok files =>
    let files := sortSlice files lessModTime
    -- images := []Image{}; for _, f := range files { images = append(images, Image{...}) }
    let images := files.foldl (fun images f => images.append (imageOf f)) (GoSlice.mk [])
    .ok { status := StatusOK, body := images }

/-- The requirement of `sort` on a `less` function: a transitive ordering (if
`less a b` and `less b c` then `less a c`; if neither `less a b` nor `less b c`
then not `less a c`) in which nothing is less than itself. -/
def TransitiveOrdering {α : Type} (less : α → α → Bool) : Prop :=
  (∀ a, less a a = false) ∧
  (∀ a b c, less a b = true → less b c = true → less a c = true) ∧
  (∀ a b c, less a b = false → less b c = false → less a c = false)

/-- What the documentation of `sort.Slice` promises: the slice is rearranged
(elements are only swapped) and ends up sorted as determined by `less`.  It
promises no stability. -/
structure SortSliceSpec {α : Type} (sortSlice : List α → (α → α → Bool) → List α) : Prop where
  perm : ∀ xs less, (sortSlice xs less).Perm xs
  sorted : ∀ xs less, TransitiveOrdering less →
    (sortSlice xs less).Pairwise (fun a b => less b a = false)

/-- Go `data.Less(i, j)`, for a `less` given on elements. -/
def lessAt {α : Type} (less : α → α → Bool) (data : List α) (i j : Nat) : Bool :=
  match data[i]?, data[j]? with
  | some x, some y => less x y
  | _, _ => false

/-- Go `data.Swap(i, j)`. -/
def swapAt {α : Type} (data : List α) (i j : Nat) : List α :=
  match data[i]?, data[j]? with
  | some x, some y => (data.set i y).set j x
  | _, _ => data

/-- Go `insertionSort_func`: each element in turn moves left while it is less
than its left neighbour.  The sorted prefix is kept with its last element first. -/
def insertionSortFunc {α : Type} (less : α → α → Bool) (data : List α) : List α :=
  (data.foldl (fun acc x => acc.orderedInsert (fun a b => less a b = false) x) []).reverse

/-- Go `insertionSort_func(data, a, b)`: insertion sort of `data[a:b]`. -/
def insertionSortRange {α : Type} (less : α → α → Bool) (data : List α) (a b : Nat) : List α :=
  data.take a ++ insertionSortFunc less ((data.drop a).take (b - a)) ++ data.drop b

/-- Go `sortedHint`. -/
inductive SortedHint where
  | unknownHint
  | increasingHint
  | decreasingHint
deriving DecidableEq, Repr

/-- Go `order2_func(data, a, b, swaps)`: the two indices with the smaller element
first, and the updated count of swaps. -/
def order2Func {α : Type} (less : α → α → Bool) (data : List α) (a b swaps : Nat) :
    Nat × Nat × Nat :=
  if lessAt less data b a then (b, a, swaps + 1) else (a, b, swaps)

/-- Go `median_func(data, a, b, c, swaps)`: the index of the median of three
elements, and the updated count of swaps.  No element is moved. -/
def medianFunc {α : Type} (less : α → α → Bool) (data : List α) (a b c swaps : Nat) :
    Nat × Nat :=
  -- a, b = order2_func(data, a, b, swaps)
  let r1 := order2Func less data a b swaps
  -- b, c = order2_func(data, b, c, swaps)
  let r2 := order2Func less data r1.2.1 c r1.2.2
  -- a, b = order2_func(data, a, b, swaps)
  let r3 := order2Func less data r1.1 r2.1 r2.2.2
  (r3.2.1, r3.2.2)

/-- Go `medianAdjacent_func(data, a, swaps)`. -/
def medianAdjacentFunc {α : Type} (less : α → α → Bool) (data : List α) (a swaps : Nat) :
    Nat × Nat :=
  medianFunc less data (a - 1) a (a + 1) swaps

/-- Go `choosePivot_func(data, a, b)`: a static pivot below 8 elements, the
median of three below `shortestNinther = 50`, the Tukey ninther from there on;
the hint is `increasingHint` when no swap was counted and `decreasingHint` when
`maxSwaps = 12` were. -/
def choosePivotFunc {α : Type} (less : α → α → Bool) (data : List α) (a b : Nat) :
    Nat × SortedHint :=
  let l := b - a
  let i := a + l / 4 * 1
  let j := a + l / 4 * 2
  let k := a + l / 4 * 3
  let r : Nat × Nat :=
    if 8 ≤ l then
      if 50 ≤ l then
        let ri := medianAdjacentFunc less data i 0
        let rj := medianAdjacentFunc less data j ri.2
        let rk := medianAdjacentFunc less data k rj.2
        medianFunc less data ri.1 rj.1 rk.1 rk.2
      else medianFunc less data i j k 0
    else (j, 0)
  if r.2 = 0 then (r.1, .increasingHint)
  else if r.2 = 12 then (r.1, .decreasingHint)
  else (r.1, .unknownHint)

/-- Go `reverseRange_func(data, a, b)`. -/
def reverseRangeFunc {α : Type} (data : List α) (a b : Nat) : List α :=
  data.take a ++ ((data.drop a).take (b - a)).reverse ++ data.drop b

/-- The loop `for i < b && !data.Less(i, i-1) { i++ }` of
`partialInsertionSort_func`; the first argument bounds the number of turns. -/
def scanSorted {α : Type} (less : α → α → Bool) (data : List α) (b : Nat) : Nat → Nat → Nat
  | 0, i => i
  | fuel + 1, i =>
    if i < b ∧ lessAt less data i (i - 1) = false then scanSorted less data b fuel (i + 1) else i

/-- Go `partialInsertionSort_func(data, a, b)` on a range of fewer than
`shortestShifting = 50` elements: it moves nothing and tells whether the range
is sorted already. -/
def partialInsertionSortFunc {α : Type} (less : α → α → Bool) (data : List α) (a b : Nat) :
    Bool :=
  scanSorted less data b data.length (a + 1) == b

/-- The loop `for i <= j && data.Less(i, a) { i++ }` of `partition_func`. -/
def scanUp {α : Type} (less : α → α → Bool) (data : List α) (a j : Nat) : Nat → Nat → Nat
  | 0, i => i
  | fuel + 1, i =>
    if i ≤ j ∧ lessAt less data i a = true then scanUp less data a j fuel (i + 1) else i

/-- The loop `for i <= j && !data.Less(j, a) { j-- }` of `partition_func`. -/
def scanDown {α : Type} (less : α → α → Bool) (data : List α) (a i : Nat) : Nat → Nat → Nat
  | 0, j => j
  | fuel + 1, j =>
    if i ≤ j ∧ lessAt less data j a = false then scanDown less data a i fuel (j - 1) else j

/-- The endless `for` of `partition_func`, left through its `break`: the slice
and `j` at that point. -/
def partitionLoop {α : Type} (less : α → α → Bool) (a : Nat) :
    Nat → List α → Nat → Nat → List α × Nat
  | 0, data, _, j => (data, j)
  | fuel + 1, data, i, j =>
    let i := scanUp less data a j data.length i
    let j := scanDown less data a i data.length j
    if i > j then (data, j)
    else partitionLoop less a fuel (swapAt data i j) (i + 1) (j - 1)

/-- Go `partition_func(data, a, b, pivot)`: the slice afterwards, the place of
the pivot, and whether the range was partitioned already. -/
def partitionFunc {α : Type} (less : α → α → Bool) (data : List α) (a b pivot : Nat) :
    List α × Nat × Bool :=
  let data := swapAt data a pivot
  let i := scanUp less data a (b - 1) data.length (a + 1)
  let j := scanDown less data a i data.length (b - 1)
  if i > j then (swapAt data j a, j, true)
  else
    let data := swapAt data i j
    let r := partitionLoop less a data.length data (i + 1) (j - 1)
    (swapAt r.1 r.2 a, r.2, false)

/-- Go `sort.Slice(x, less)` from Go 1.19 on, that is `pdqsort_func(data, 0, n, limit)`,
through its first partition: up to `maxInsertion = 12` elements are
insertion-sorted; a longer slice gets a pivot, is left alone if the hint and
`partialInsertionSort_func` find it sorted, and is partitioned otherwise, after
which each side is insertion-sorted.  This is all `pdqsort_func` does whenever
neither side of the first partition has more than 12 elements, so on every slice
of at most 13 elements; on a longer side Go would partition again. -/
def goSortSlice {α : Type} (data : List α) (less : α → α → Bool) : List α :=
  let a := 0
  let b := data.length
  if b - a ≤ 12 then insertionSortRange less data a b
  else
    let p := choosePivotFunc less data a b
    let q : List α × Nat × SortedHint :=
      if p.2 = .decreasingHint then
        (reverseRangeFunc data a b, (b - 1) - (p.1 - a), .increasingHint)
      else (data, p.1, p.2)
    if q.2.2 = .increasingHint ∧ partialInsertionSortFunc less q.1 a b = true then q.1
    else
      let r := partitionFunc less q.1 a b q.2.1
      insertionSortRange less (insertionSortRange less r.1 a r.2.1) (r.2.1 + 1) b

/-! ## The BasicAuth validator of `main` -/

/-- The package-level variables that `flag.Parse()` fills. -/
structure Globals where
  address : String
  storage : String
  maxFileSize : String
  username : String
  password : String
  enableAuth : Bool

/-- Go `[]byte(s)`. -/
def goBytes (s : String) : List Byte := s.toUTF8.data.toList.map UInt8.toNat

/-- Go `subtle.ConstantTimeByteEq(x, y)`: `int((uint32(x^y) - 1) >> 31)`. -/
def ConstantTimeByteEq (x y : Byte) : Int :=
  ((((x ^^^ y) + 2 ^ 32 - 1) % 2 ^ 32) >>> 31 : Nat)

/-- Go `subtle.ConstantTimeCompare(x, y)`. -/
def ConstantTimeCompare (x y : List Byte) : Int :=
  if x.length ≠ y.length then 0
  else ConstantTimeByteEq ((x.zip y).foldl (fun v p => v ||| (p.1 ^^^ p.2)) 0) 0

/-- The function literal `main` passes to `middleware.BasicAuth`.  Its
parameters `username` and `password` shadow the package-level variables of the
same names. -/
def basicAuthValidator (g : Globals) : String → String → Context → Bool × Option GoError :=
  let username := g.username
  let password := g.password
  fun username password _ =>
    if ConstantTimeCompare (goBytes username) (goBytes username) = 1 &&
        ConstantTimeCompare (goBytes password) (goBytes password) = 1 then
      (true, none)
    else
      (false, none)

/-- The validator that `main` installs on the group `/api`:
`if enableAuth { g.Use(middleware.BasicAuth(...)) }`. -/
def installedValidator (g : Globals) :
    Option (String → String → Context → Bool × Option GoError) :=
  if g.enableAuth then some (basicAuthValidator g) else none

/-! ## Concrete inputs -/

/-- A `Lib` to run `upload` with: every date is rendered as the same text, and a
record is encoded as the code points of its name followed by its size. -/
def sampleLib : Lib :=
  { Format := fun _ _ => "1970/01/01 00:00:00"
    MarshalIndent := fun m _ _ => m.FileName.data.map Char.toNat ++ [m.FileSize.toNat] }

/-- An environment answer in which every operation succeeds and `uuid.New()`
gives the UUID of value `n`. -/
def okEnv (n : Nat) : PartEnv :=
  { id := { val := n }
    now := { unixNano := 0 }
    openErr := none
    mkdirErr := none
    createErr := none
    copyErr := none
    writeErr := none }

/-- A world without files and without open handles. -/
def emptyWorld : World := { fs := fun _ => none, handles := [] }

/-- A request whose form holds the given file parts in the field `files`. -/
def requestOf (files : List FileHeader) : Context :=
  { MultipartForm := .ok { File := fun field => if field = "files" then files else [] } }

/-- A part named `report.txt` of 10 bytes. -/
def report : FileHeader :=
  { Filename := "report.txt", Size := 10, content := [1, 2, 3, 4, 5, 6, 7, 8, 9, 10]
    size_eq := by decide }

/-- A part of 2 bytes that the client names `../b.bin`. -/
def secondPart : ClientPart :=
  { filename := "../b.bin", content := [254, 255] }

/-- The header `c.MultipartForm()` makes of `secondPart`. -/
def second : FileHeader := fileHeaderOf secondPart

/-- A world whose only file is a metadata record left under the name that the
UUID of value 0 gives. -/
def staleRecordWorld : World :=
  { fs := fun q => if q = sprintfJson "media" (fileName { val := 0 }) then some [7] else none
    handles := [] }

/-- An environment in which both parts of a batch draw the same UUID and the
copy of the second part fails before any byte is written. -/
def collidingEnv (i : Nat) : PartEnv :=
  if i = 0 then okEnv 0 else { okEnv 0 with copyErr := some (0, "write: no space left on device") }

/-- An environment in which the second part's `io.Copy` fails after one byte. -/
def secondCopyFails (i : Nat) : PartEnv :=
  if i = 1 then { okEnv 1 with copyErr := some (1, "write: no space left on device") } else okEnv i

/-- An environment in which `os.MkdirAll` fails for every part and everything
else succeeds. -/
def mkdirFails (i : Nat) : PartEnv :=
  { okEnv i with mkdirErr := some "mkdir : no such file or directory" }

/-- A directory of seven entries, in the order of their names; `a` and `b` share
a modification time. -/
def sevenEntries : List FileInfo :=
  [ { Name := "a", ModTime := { unixNano := 2 }, Size := 1, IsDir := false },
    { Name := "b", ModTime := { unixNano := 2 }, Size := 2, IsDir := false },
    { Name := "c", ModTime := { unixNano := 3 }, Size := 3, IsDir := false },
    { Name := "d", ModTime := { unixNano := 3 }, Size := 4, IsDir := true },
    { Name := "e", ModTime := { unixNano := 3 }, Size := 5, IsDir := false },
    { Name := "f", ModTime := { unixNano := 3 }, Size := 6, IsDir := false },
    { Name := "g", ModTime := { unixNano := 1 }, Size := 7, IsDir := false } ]

/-- A directory of thirteen entries, in the order of their names; `a` and `g`
share a modification time. -/
def thirteenEntries : List FileInfo :=
  [ { Name := "a", ModTime := { unixNano := 50 }, Size := 1, IsDir := false },
    { Name := "b", ModTime := { unixNano := 10 }, Size := 2, IsDir := false },
    { Name := "c", ModTime := { unixNano := 20 }, Size := 3, IsDir := false },
    { Name := "d", ModTime := { unixNano := 30 }, Size := 4, IsDir := true },
    { Name := "e", ModTime := { unixNano := 40 }, Size := 5, IsDir := false },
    { Name := "f", ModTime := { unixNano := 45 }, Size := 6, IsDir := false },
    { Name := "g", ModTime := { unixNano := 50 }, Size := 7, IsDir := false },
    { Name := "h", ModTime := { unixNano := 60 }, Size := 8, IsDir := false },
    { Name := "i", ModTime := { unixNano := 70 }, Size := 9, IsDir := false },
    { Name := "j", ModTime := { unixNano := 80 }, Size := 10, IsDir := false },
    { Name := "k", ModTime := { unixNano := 90 }, Size := 11, IsDir := false },
    { Name := "l", ModTime := { unixNano := 100 }, Size := 12, IsDir := false },
    { Name := "m", ModTime := { unixNano := 110 }, Size := 13, IsDir := false } ]

/-- Package-level variables with authentication enabled. -/
def authEnabled : Globals :=
  { address := ":9090", storage := "media", maxFileSize := "50M"
    username := "user", password := "pass", enableAuth := true }

/-! ## Names and paths -/

theorem hexDigit_mem (d : Nat) : hexDigit d ∈ hexDigits := by
  unfold hexDigit
  have h : d % 16 < hexDigits.length := by
    have : hexDigits.length = 16 := rfl
    omega
  rw [List.getD_eq_getElem _ _ h]
  exact List.getElem_mem h

theorem hexDigit_ne_newline (d : Nat) : hexDigit d ≠ '\n' := by
  intro h
  have hm := hexDigit_mem d
  rw [h] at hm
  revert hm
  decide

theorem newline_not_mem_hex (u : UUID) (start len : Nat) : '\n' ∉ u.hex start len := by
  unfold UUID.hex
  intro h
  rcases List.mem_map.1 h with ⟨i, _, hi⟩
  exact hexDigit_ne_newline _ hi

theorem newline_not_mem_String (u : UUID) : '\n' ∉ u.String.data := by
  have h := newline_not_mem_hex u
  simp [UUID.String, h]

/-- The call of `strings.TrimSuffix` in `upload` removes nothing: the canonical
form of a UUID never ends in a line feed. -/
theorem fileName_eq (id : UUID) : fileName id = id.String := by
  unfold fileName TrimSuffix
  have hdata : ("\n" : String).data = ['\n'] := rfl
  rw [if_neg]
  rw [hdata]
  intro hs
  exact newline_not_mem_String id (hs.subset (List.mem_singleton_self _))

theorem fileName_length (id : UUID) : (fileName id).length = 36 := by
  rw [fileName_eq]
  simp [UUID.String, UUID.hex, String.length]

theorem sprintfPath_inj {s a b : String} (h : sprintfPath s a = sprintfPath s b) : a = b := by
  have hd := congrArg String.data h
  simp only [sprintfPath, String.data_append, List.append_assoc] at hd
  exact String.ext (List.append_cancel_left (List.append_cancel_left hd))

theorem sprintfJson_inj {s a b : String} (h : sprintfJson s a = sprintfJson s b) : a = b := by
  have hd := congrArg String.data h
  simp only [sprintfJson, String.data_append, List.append_assoc] at hd
  exact String.ext (List.append_cancel_right (List.append_cancel_left (List.append_cancel_left hd)))

theorem sprintfPath_ne_sprintfJson {s a b : String} (h : a.length = b.length) :
    sprintfPath s a ≠ sprintfJson s b := by
  intro he
  have hd := congrArg String.data he
  simp only [sprintfPath, sprintfJson, String.data_append, List.append_assoc] at hd
  have hl := congrArg List.length (List.append_cancel_left (List.append_cancel_left hd))
  have h5 : (".json" : String).data.length = 5 := rfl
  simp only [List.length_append, h5] at hl
  simp only [String.length] at h
  omega

/-- The path of a stored file is never the path of a metadata record. -/
theorem path_ne_json (storage : String) (a b : UUID) :
    sprintfPath storage (fileName a) ≠ sprintfJson storage (fileName b) :=
  sprintfPath_ne_sprintfJson (by rw [fileName_length, fileName_length])

/-! ## One iteration of the loop -/

theorem runDeferred_fs (w : World) (hs : List Handle) : (runDeferred w hs).fs = w.fs := by
  induction hs generalizing w with
  | nil => rfl
  | cons h hs ih => simp [runDeferred, ih, World.close]

/-- An iteration whose four checked operations succeed: what it leaves. -/
theorem uploadPart_of_ok (lib : Lib) (storage : String) (i : Nat) (file : FileHeader)
    (e : PartEnv) (s : UploadState) (h : e.ok) :
    ∃ s', uploadPart lib storage i file e s = .next s' ∧
      s'.links = s.links.append (sprintfPath storage (fileName e.id)) ∧
      s'.deferred = .dst i :: .src i :: s.deferred ∧
      s'.world.handles = .dst i :: .src i :: s.world.handles ∧
      ∀ q, s'.world.fs q =
        if q = sprintfJson storage (fileName e.id) then some (recordBytes lib file e.now)
        else if q = sprintfPath storage (fileName e.id) then some file.content
        else s.world.fs q := by
  obtain ⟨h1, h2, h3, h4⟩ := h
  simp only [uploadPart, h1, h2, h3, h4]
  refine ⟨_, rfl, rfl, rfl, rfl, ?_⟩
  · intro q
    simp only [World.put, World.opened, recordBytes, recordOf]
    by_cases hq : q = sprintfJson storage (fileName e.id)
    · simp [hq]
    · by_cases hp : q = sprintfPath storage (fileName e.id) <;> simp [hq, hp]

theorem uploadPart_next_inv (lib : Lib) (storage : String) (i : Nat) (file : FileHeader)
    (e : PartEnv) (s s' : UploadState) (h : uploadPart lib storage i file e s = .next s') :
    e.ok := by
  unfold uploadPart at h
  unfold PartEnv.ok
  cases h1 : e.openErr with
  | some err => simp [h1] at h
  | none =>
    cases h2 : e.createErr with
    | some err => simp [h1, h2] at h
    | none =>
      cases h3 : e.copyErr with
      | some p => simp [h1, h2, h3] at h
      | none =>
        cases h4 : e.writeErr with
        | some p =>
          rcases p with ⟨_ | n, err⟩ <;> simp [h1, h2, h3, h4] at h
        | none => simp

theorem uploadPart_ret_of_not_ok (lib : Lib) (storage : String) (i : Nat) (file : FileHeader)
    (e : PartEnv) (s : UploadState) (h : ¬ e.ok) :
    ∃ err s', uploadPart lib storage i file e s = .ret err s' := by
  cases hr : uploadPart lib storage i file e s with
  | next s' => exact absurd (uploadPart_next_inv lib storage i file e s s' hr) h
  | ret err s' => exact ⟨err, s', rfl⟩

/-- An iteration touches no file but the two of its own part, however it ends. -/
theorem uploadPart_frame (lib : Lib) (storage : String) (i : Nat) (file : FileHeader)
    (e : PartEnv) (s : UploadState) (q : String)
    (hp : q ≠ sprintfPath storage (fileName e.id))
    (hj : q ≠ sprintfJson storage (fileName e.id)) :
    (uploadPart lib storage i file e s).state.world.fs q = s.world.fs q := by
  unfold uploadPart
  cases h1 : e.openErr with
  | some err => simp [Step.state]
  | none =>
    cases h2 : e.createErr with
    | some err => simp [Step.state, World.opened]
    | none =>
      cases h3 : e.copyErr with
      | some p => simp [Step.state, World.opened, World.put, hp]
      | none =>
        cases h4 : e.writeErr with
        | some p =>
          rcases p with ⟨_ | n, err⟩ <;> simp [Step.state, World.opened, World.put, hp, hj]
        | none => simp [Step.state, World.opened, World.put, hp, hj]

/-! ## The loop -/

theorem uploadLoop_append (lib : Lib) (storage : String) (env : Nat → PartEnv)
    (xs ys : List FileHeader) (i : Nat) (s : UploadState) :
    uploadLoop lib storage env i (xs ++ ys) s =
      match uploadLoop lib storage env i xs s with
      | .next s' => uploadLoop lib storage env (i + xs.length) ys s'
      | .ret err s' => .ret err s' := by
  induction xs generalizing i s with
  | nil => simp [uploadLoop]
  | cons x xs ih =>
    simp only [List.cons_append, uploadLoop, List.length_cons]
    cases hx : uploadPart lib storage i x (env i) s with
    | next s1 =>
      simp only []
      have e : i + 1 + xs.length = i + (xs.length + 1) := by omega
      have h := ih (i + 1) s1
      rw [e] at h
      exact h
    | ret err s1 => rfl

/-- The loop touches no file but those of the parts it goes through, however it
ends. -/
theorem uploadLoop_frame (lib : Lib) (storage : String) (env : Nat → PartEnv)
    (files : List FileHeader) (i : Nat) (s : UploadState) (q : String)
    (h : ∀ j, j < files.length →
      q ≠ sprintfPath storage (fileName (env (i + j)).id) ∧
      q ≠ sprintfJson storage (fileName (env (i + j)).id)) :
    (uploadLoop lib storage env i files s).state.world.fs q = s.world.fs q := by
  induction files generalizing i s with
  | nil => rfl
  | cons f rest ih =>
    have h0 := h 0 (by simp)
    have hf := uploadPart_frame lib storage i f (env i) s q h0.1 h0.2
    simp only [uploadLoop]
    cases hx : uploadPart lib storage i f (env i) s with
    | next s1 =>
      simp only []
      rw [hx] at hf
      rw [ih (i + 1) s1]
      · exact hf
      · intro j hj
        have := h (j + 1) (by simpa using hj)
        have e : i + 1 + j = i + (j + 1) := by omega
        rw [e]
        exact this
    | ret err s1 =>
      rw [hx] at hf
      exact hf

/-- When the checked operations of every part succeed the loop runs to its end;
the links it has then, and the handles that are open then. -/
theorem uploadLoop_of_ok (lib : Lib) (storage : String) (env : Nat → PartEnv)
    (files : List FileHeader) (i : Nat) (s : UploadState)
    (h : ∀ j, j < files.length → (env (i + j)).ok) :
    ∃ s', uploadLoop lib storage env i files s = .next s' ∧
      s'.links.elems = s.links.elems ++
        (List.range files.length).map (fun j => sprintfPath storage (fileName (env (i + j)).id)) ∧
      (∀ x ∈ s.world.handles, x ∈ s'.world.handles) ∧
      (∀ j, j < files.length →
        Handle.src (i + j) ∈ s'.world.handles ∧ Handle.dst (i + j) ∈ s'.world.handles) := by
  induction files generalizing i s with
  | nil => exact ⟨s, rfl, by simp, fun _ hx => hx, by simp⟩
  | cons f rest ih =>
    obtain ⟨s1, hs1, hl1, -, hh1, -⟩ :=
      uploadPart_of_ok lib storage i f (env i) s (by simpa using h 0 (by simp))
    obtain ⟨s2, hs2, hl2, hsub, hopen⟩ := ih (i + 1) s1 (by
      intro j hj
      have := h (j + 1) (by simpa using hj)
      have e : i + 1 + j = i + (j + 1) := by omega
      rw [e]
      exact this)
    refine ⟨s2, ?_, ?_, ?_, ?_⟩
    · simp only [uploadLoop, hs1, hs2]
    · rw [hl2, hl1, List.length_cons, List.range_succ_eq_map]
      simp [GoSlice.append, GoSlice.elems, List.map_map, Function.comp_def, Nat.add_assoc,
        Nat.add_comm 1]
    · intro x hx
      exact hsub x (by rw [hh1]; simp [hx])
    · intro j hj
      cases j with
      | zero =>
        exact ⟨hsub _ (by rw [hh1]; simp), hsub _ (by rw [hh1]; simp)⟩
      | succ j =>
        have := hopen j (by simpa using hj)
        have e : i + 1 + j = i + (j + 1) := by omega
        rw [e] at this
        exact this

/-- After a loop in which every part succeeded, under pairwise distinct names:
each part's two files hold what was written for that part. -/
theorem uploadLoop_ok_fs (lib : Lib) (storage : String) (env : Nat → PartEnv)
    (files : List FileHeader) (i : Nat) (s : UploadState)
    (h : ∀ j, j < files.length → (env (i + j)).ok)
    (hd : ∀ a b, a < files.length → b < files.length →
      fileName (env (i + a)).id = fileName (env (i + b)).id → a = b)
    (j : Nat) (f : FileHeader) (hf : files[j]? = some f) :
    (uploadLoop lib storage env i files s).state.world.fs
        (sprintfPath storage (fileName (env (i + j)).id)) = some f.content ∧
    (uploadLoop lib storage env i files s).state.world.fs
        (sprintfJson storage (fileName (env (i + j)).id)) =
      some (recordBytes lib f (env (i + j)).now) := by
  induction files generalizing i s j with
  | nil => simp at hf
  | cons g rest ih =>
    obtain ⟨s1, hs1, -, -, -, hfs1⟩ :=
      uploadPart_of_ok lib storage i g (env i) s (by simpa using h 0 (by simp))
    have hloop : uploadLoop lib storage env i (g :: rest) s =
        uploadLoop lib storage env (i + 1) rest s1 := by
      simp only [uploadLoop, hs1]
    rw [hloop]
    cases j with
    | zero =>
      simp only [List.getElem?_cons_zero, Option.some.injEq] at hf
      subst hf
      have hne : ∀ m, m < rest.length →
          fileName (env (i + 0)).id ≠ fileName (env (i + 1 + m)).id := by
        intro m hm he
        have e : i + 1 + m = i + (m + 1) := by omega
        rw [e] at he
        have := hd 0 (m + 1) (by simp) (by simpa using hm) he
        omega
      constructor
      · rw [uploadLoop_frame lib storage env rest (i + 1) s1]
        · rw [hfs1, if_neg (path_ne_json storage _ _)]
          simp
        · intro m hm
          exact ⟨fun he => hne m hm (sprintfPath_inj he), path_ne_json storage _ _⟩
      · rw [uploadLoop_frame lib storage env rest (i + 1) s1]
        · rw [hfs1]
          simp
        · intro m hm
          exact ⟨fun he => path_ne_json storage _ _ he.symm,
            fun he => hne m hm (sprintfJson_inj he)⟩
    | succ j =>
      have e : i + (j + 1) = i + 1 + j := by omega
      rw [e]
      refine ih (i + 1) s1 ?_ ?_ j (by simpa using hf)
      · intro m hm
        have := h (m + 1) (by simpa using hm)
        have e : i + 1 + m = i + (m + 1) := by omega
        rw [e]
        exact this
      · intro a b ha hb hab
        have ea : i + 1 + a = i + (a + 1) := by omega
        have eb : i + 1 + b = i + (b + 1) := by omega
        rw [ea, eb] at hab
        have := hd (a + 1) (b + 1) (by simpa using ha) (by simpa using hb) hab
        omega

/-! ## `upload` -/

/-- With a well-formed form, `upload` is its loop followed by the return. -/
theorem upload_eq (lib : Lib) (storage : String) (c : Context) (env : Nat → PartEnv)
    (w : World) (form : Form) (hform : c.MultipartForm = .ok form) :
    upload lib storage c env w =
      uploadReturn (uploadLoop lib storage env 0 (form.File "files") (UploadState.init w)) := by
  unfold upload
  rw [hform]

/-- C1. Round trip: when the field `files` holds a single part and `upload`
answers 200 with the one-element list `[p]`, the file at path `p` holds exactly
the bytes of the part. -/
theorem upload_round_trip (lib : Lib) (storage : String) (c : Context) (env : Nat → PartEnv)
    (w : World) (form : Form) (file : FileHeader) (p : String)
    (hform : c.MultipartForm = .ok form) (hfiles : form.File "files" = [file])
    (hok : (upload lib storage c env w).1 = .ok { status := StatusOK, body := .mk [p] }) :
    (upload lib storage c env w).2.fs p = some file.content := by
  rw [upload_eq lib storage c env w form hform, hfiles] at hok ⊢
  simp only [uploadLoop] at hok ⊢
  cases hx : uploadPart lib storage 0 file (env 0) (UploadState.init w) with
  | ret err s1 =>
    simp [hx, uploadReturn] at hok
  | next s1 =>
    have hokE := uploadPart_next_inv lib storage 0 file (env 0) _ s1 hx
    obtain ⟨s', hs', hl, -, -, hfs⟩ :=
      uploadPart_of_ok lib storage 0 file (env 0) (UploadState.init w) hokE
    rw [hx] at hs'
    cases hs'
    simp only [hx, uploadReturn, Except.ok.injEq, Response.mk.injEq, true_and] at hok ⊢
    rw [hl] at hok
    simp only [UploadState.init, GoSlice.append, GoSlice.elems, List.nil_append,
      GoSlice.mk.injEq, List.cons.injEq, and_true] at hok
    subst hok
    simp only [runDeferred_fs]
    rw [hfs, if_neg (path_ne_json storage _ _)]
    simp

/-- C1, at a concrete request: the part `report` alone. -/
theorem upload_round_trip_witness :
    (upload sampleLib "media" (requestOf [report]) okEnv emptyWorld).1 =
        .ok { status := StatusOK, body := .mk ["media/00000000-0000-0000-0000-000000000000"] } ∧
    (upload sampleLib "media" (requestOf [report]) okEnv emptyWorld).2.fs
        "media/00000000-0000-0000-0000-000000000000" = some report.content :=
  ⟨by rfl,
   upload_round_trip sampleLib "media" (requestOf [report]) okEnv emptyWorld _ report _ rfl
     (by rfl) (by rfl)⟩

/-- When the loop runs to its end, `upload` answers 200 with the links. -/
theorem upload_of_loop_next (lib : Lib) (storage : String) (c : Context) (env : Nat → PartEnv)
    (w : World) (form : Form) (s' : UploadState) (hform : c.MultipartForm = .ok form)
    (h : uploadLoop lib storage env 0 (form.File "files") (UploadState.init w) = .next s') :
    (upload lib storage c env w).1 = .ok { status := StatusOK, body := s'.links } := by
  rw [upload_eq lib storage c env w form hform, h]
  rfl

/-- A request without file parts is answered with the nil slice, which
`c.JSON` encodes as `null`. -/
theorem upload_no_parts (lib : Lib) (storage : String) (c : Context) (env : Nat → PartEnv)
    (w : World) (form : Form) (hform : c.MultipartForm = .ok form)
    (hfiles : form.File "files" = []) :
    upload lib storage c env w = (.ok { status := StatusOK, body := .nil }, w) := by
  rw [upload_eq lib storage c env w form hform, hfiles]
  rfl

/-- C2. Result list: when the checked filesystem operations of every part
succeed, `upload` answers 200 with a slice of one path per part, in the order of
the parts; the `i`-th path is `storage ++ "/" ++ id_i` for the identifier drawn
for part `i`. -/
theorem upload_links (lib : Lib) (storage : String) (c : Context) (env : Nat → PartEnv)
    (w : World) (form : Form) (hform : c.MultipartForm = .ok form)
    (hok : ∀ i, i < (form.File "files").length → (env i).ok) :
    ∃ links, (upload lib storage c env w).1 = .ok { status := StatusOK, body := links } ∧
      links.elems.length = (form.File "files").length ∧
      links.elems = (List.range (form.File "files").length).map
        (fun i => storage ++ "/" ++ (env i).id.String) := by
  obtain ⟨s', hs', hl, -, -⟩ :=
    uploadLoop_of_ok lib storage env (form.File "files") 0 (UploadState.init w)
      (by intro j hj; rw [Nat.zero_add]; exact hok j hj)
  have he : s'.links.elems = (List.range (form.File "files").length).map
      (fun i => storage ++ "/" ++ (env i).id.String) := by
    rw [hl]
    simp only [UploadState.init, GoSlice.elems, List.nil_append, Nat.zero_add, fileName_eq,
      sprintfPath]
  refine ⟨s'.links, upload_of_loop_next lib storage c env w form s' hform hs', ?_, he⟩
  rw [he]
  simp

/-- C2, at a concrete request of two parts. -/
theorem upload_links_witness :
    (∀ i, i < [report, second].length → (okEnv i).ok) ∧
    ∃ links,
      (upload sampleLib "media" (requestOf [report, second]) okEnv emptyWorld).1 =
        .ok { status := StatusOK, body := links } ∧
      links.elems.length = 2 ∧
      links.elems = (List.range 2).map (fun i => "media" ++ "/" ++ (okEnv i).id.String) :=
  ⟨fun _ _ => ⟨rfl, rfl, rfl, rfl⟩,
   upload_links sampleLib "media" (requestOf [report, second]) okEnv emptyWorld
     { File := fun field => if field = "files" then [report, second] else [] } rfl
     (fun _ _ => ⟨rfl, rfl, rfl, rfl⟩)⟩

theorem upload_snd_fs (lib : Lib) (storage : String) (c : Context) (env : Nat → PartEnv)
    (w : World) (form : Form) (hform : c.MultipartForm = .ok form) :
    (upload lib storage c env w).2.fs =
      (uploadLoop lib storage env 0 (form.File "files") (UploadState.init w)).state.world.fs := by
  rw [upload_eq lib storage c env w form hform]
  cases uploadLoop lib storage env 0 (form.File "files") (UploadState.init w) <;>
    simp [uploadReturn, Step.state, runDeferred_fs]

/-- C3, as stated, fails: the identifier drawn for the only part names no entry
of the storage root and `upload` succeeds, but an entry named after the
identifier with `.json` appended was there before the call, so the metadata
record is not a new entry, and that earlier entry has been overwritten. -/
theorem upload_new_entries_counterexample :
    staleRecordWorld.fs ("media" ++ "/" ++ (okEnv 0).id.String) = none ∧
    (upload sampleLib "media" (requestOf [report]) okEnv staleRecordWorld).1 =
      .ok { status := StatusOK, body := .mk ["media" ++ "/" ++ (okEnv 0).id.String] } ∧
    staleRecordWorld.fs ("media" ++ "/" ++ (okEnv 0).id.String ++ ".json") = some [7] ∧
    (upload sampleLib "media" (requestOf [report]) okEnv staleRecordWorld).2.fs
        ("media" ++ "/" ++ (okEnv 0).id.String ++ ".json") ≠
      staleRecordWorld.fs ("media" ++ "/" ++ (okEnv 0).id.String ++ ".json") := by
  refine ⟨by decide, by rfl, by decide, by decide⟩

/-- C3, amended. When the checked operations of all `n` parts succeed, the
identifiers are pairwise distinct, and neither `id_i` nor `id_i ++ ".json"` names
an entry of the storage root before the call, then `upload` succeeds and
afterwards: the stored file `id_i` holds the bytes of part `i` and the record
`id_i ++ ".json"` holds the encoded metadata of part `i`; these `2n` paths are
pairwise distinct; every other path is as it was before the call (nothing else
is added), and every file that existed before the call is unchanged. -/
theorem upload_new_entries (lib : Lib) (storage : String) (c : Context) (env : Nat → PartEnv)
    (w : World) (form : Form) (hform : c.MultipartForm = .ok form)
    (hok : ∀ i, i < (form.File "files").length → (env i).ok)
    (hdistinct : ∀ a b, a < (form.File "files").length → b < (form.File "files").length →
      (env a).id.String = (env b).id.String → a = b)
    (hfresh : ∀ i, i < (form.File "files").length →
      w.fs (storage ++ "/" ++ (env i).id.String) = none ∧
      w.fs (storage ++ "/" ++ (env i).id.String ++ ".json") = none) :
    (∃ links, (upload lib storage c env w).1 = .ok { status := StatusOK, body := links } ∧
      links.elems.length = (form.File "files").length) ∧
    (∀ i file, (form.File "files")[i]? = some file →
      (upload lib storage c env w).2.fs (storage ++ "/" ++ (env i).id.String) =
        some file.content ∧
      (upload lib storage c env w).2.fs (storage ++ "/" ++ (env i).id.String ++ ".json") =
        some (recordBytes lib file (env i).now)) ∧
    (∀ a b, a < (form.File "files").length → b < (form.File "files").length →
      (storage ++ "/" ++ (env a).id.String = storage ++ "/" ++ (env b).id.String → a = b) ∧
      (storage ++ "/" ++ (env a).id.String ++ ".json" =
        storage ++ "/" ++ (env b).id.String ++ ".json" → a = b) ∧
      storage ++ "/" ++ (env a).id.String ≠ storage ++ "/" ++ (env b).id.String ++ ".json") ∧
    (∀ q, (∀ i, i < (form.File "files").length →
        q ≠ storage ++ "/" ++ (env i).id.String ∧
        q ≠ storage ++ "/" ++ (env i).id.String ++ ".json") →
      (upload lib storage c env w).2.fs q = w.fs q) ∧
    (∀ q, w.fs q ≠ none → (upload lib storage c env w).2.fs q = w.fs q) := by
  have hP : ∀ u : UUID, storage ++ "/" ++ u.String = sprintfPath storage (fileName u) := by
    intro u; rw [fileName_eq]; rfl
  have hJ : ∀ u : UUID, storage ++ "/" ++ u.String ++ ".json" = sprintfJson storage (fileName u) := by
    intro u; rw [fileName_eq]; rfl
  have hframe : ∀ q, (∀ i, i < (form.File "files").length →
        q ≠ storage ++ "/" ++ (env i).id.String ∧
        q ≠ storage ++ "/" ++ (env i).id.String ++ ".json") →
      (upload lib storage c env w).2.fs q = w.fs q := by
    intro q hq
    rw [upload_snd_fs lib storage c env w form hform,
      uploadLoop_frame lib storage env (form.File "files") 0 (UploadState.init w) q]
    · rfl
    · intro j hj
      rw [Nat.zero_add, ← hP, ← hJ]
      exact hq j hj
  refine ⟨?_, ?_, ?_, hframe, ?_⟩
  · obtain ⟨s', hs', hl, -, -⟩ :=
      uploadLoop_of_ok lib storage env (form.File "files") 0 (UploadState.init w)
        (by intro j hj; rw [Nat.zero_add]; exact hok j hj)
    refine ⟨s'.links, upload_of_loop_next lib storage c env w form s' hform hs', ?_⟩
    rw [hl]
    simp [UploadState.init, GoSlice.elems]
  · intro i file hfile
    have h := uploadLoop_ok_fs lib storage env (form.File "files") 0 (UploadState.init w)
      (by intro j hj; rw [Nat.zero_add]; exact hok j hj)
      (by
        intro a b ha hb hab
        rw [Nat.zero_add, Nat.zero_add, fileName_eq, fileName_eq] at hab
        exact hdistinct a b ha hb hab)
      i file hfile
    rw [Nat.zero_add, ← hP, ← hJ] at h
    rw [upload_snd_fs lib storage c env w form hform]
    exact h
  · intro a b ha hb
    refine ⟨?_, ?_, ?_⟩
    · intro h
      rw [hP, hP] at h
      have := sprintfPath_inj h
      rw [fileName_eq, fileName_eq] at this
      exact hdistinct a b ha hb this
    · intro h
      rw [hJ, hJ] at h
      have := sprintfJson_inj h
      rw [fileName_eq, fileName_eq] at this
      exact hdistinct a b ha hb this
    · rw [hP, hJ]
      exact path_ne_json storage _ _
  · intro q hq
    apply hframe
    intro i hi
    obtain ⟨h1, h2⟩ := hfresh i hi
    constructor
    · intro he; rw [he] at hq; exact hq h1
    · intro he; rw [he] at hq; exact hq h2

/-- C3 amended, at a concrete request of two parts on an empty storage root. -/
theorem upload_new_entries_witness :
    (∃ links,
      (upload sampleLib "media" (requestOf [report, second]) okEnv emptyWorld).1 =
        .ok { status := StatusOK, body := links } ∧ links.elems.length = 2) ∧
    (∀ q, emptyWorld.fs q ≠ none →
      (upload sampleLib "media" (requestOf [report, second]) okEnv emptyWorld).2.fs q =
        emptyWorld.fs q) := by
  have h := upload_new_entries sampleLib "media" (requestOf [report, second]) okEnv emptyWorld
    { File := fun field => if field = "files" then [report, second] else [] } rfl
    (fun _ _ => ⟨rfl, rfl, rfl, rfl⟩)
    (by
      intro a b ha hb
      have ha' : a < 2 := ha
      have hb' : b < 2 := hb
      interval_cases a <;> interval_cases b <;> decide)
    (fun _ _ => ⟨rfl, rfl⟩)
  exact ⟨h.1, h.2.2.2.2⟩

/-- What a successful iteration has written for its part: the record holds the
`Filename` and the `Size` of the header, unchanged, and the stored file holds
the bytes of the part. -/
theorem uploadPart_record (lib : Lib) (storage : String) (i : Nat) (file : FileHeader)
    (e : PartEnv) (s s' : UploadState)
    (h : uploadPart lib storage i file e s = .next s') :
    s'.world.fs (storage ++ "/" ++ e.id.String ++ ".json") =
      some (lib.MarshalIndent
        { FileName := file.Filename
          CreateDate := lib.Format e.now "2006/01/02 15:04:05"
          FileSize := file.Size } "" " ") ∧
    s'.world.fs (storage ++ "/" ++ e.id.String) = some file.content := by
  have hok := uploadPart_next_inv lib storage i file e s s' h
  obtain ⟨s1, hs1, -, -, -, hfs⟩ := uploadPart_of_ok lib storage i file e s hok
  rw [h] at hs1
  cases hs1
  have hP : storage ++ "/" ++ e.id.String = sprintfPath storage (fileName e.id) := by
    rw [fileName_eq]; rfl
  have hJ : storage ++ "/" ++ e.id.String ++ ".json" = sprintfJson storage (fileName e.id) := by
    rw [fileName_eq]; rfl
  constructor
  · rw [hJ, hfs, if_pos rfl]
    rfl
  · rw [hP, hfs, if_neg (path_ne_json storage _ _), if_pos rfl]

/-- A name without a slash is its own base name. -/
theorem Base_of_no_slash (name : String) (hne : name ≠ "") (hs : '/' ∉ name.data) :
    Base name = name := by
  have hrev : ∀ ch ∈ name.data.reverse, ch ≠ '/' := by
    intro ch hch he
    rw [List.mem_reverse] at hch
    exact hs (he ▸ hch)
  have hdata : name.data ≠ [] := by
    intro he
    exact hne (String.ext he)
  have hdrop : name.data.reverse.dropWhile (fun ch => decide (ch = '/')) = name.data.reverse := by
    cases hr : name.data.reverse with
    | nil => rfl
    | cons c rest =>
      have hc : c ≠ '/' := hrev c (by rw [hr]; simp)
      simp [List.dropWhile, hc]
  have htake : name.data.reverse.takeWhile (fun ch => decide (ch ≠ '/')) = name.data.reverse := by
    rw [List.takeWhile_eq_self_iff]
    intro ch hch
    simpa using hrev ch hch
  unfold Base
  rw [if_neg hne]
  simp only [hdrop, List.reverse_reverse, htake, if_neg hdata]

/-- C4, as stated, fails: the client names its part `../b.bin`; the record that
`upload` writes holds the file name `b.bin`, because `c.MultipartForm()` hands
`upload` the base name only. -/
theorem metadata_fidelity_counterexample :
    secondPart.filename = "../b.bin" ∧
    (uploadPart sampleLib "media" 0 (fileHeaderOf secondPart) (okEnv 0)
        (UploadState.init emptyWorld)).state.world.fs
        ("media" ++ "/" ++ (okEnv 0).id.String ++ ".json") =
      some (sampleLib.MarshalIndent
        { FileName := "b.bin", CreateDate := "1970/01/01 00:00:00", FileSize := 2 } "" " ") ∧
    sampleLib.MarshalIndent
        { FileName := "b.bin", CreateDate := "1970/01/01 00:00:00", FileSize := 2 } "" " " ≠
      sampleLib.MarshalIndent
        { FileName := "../b.bin", CreateDate := "1970/01/01 00:00:00", FileSize := 2 } "" " " := by
  refine ⟨by rfl, by decide, by decide⟩

/-- C4, amended. When the loop body processes a part successfully, the record it
has written at `storage ++ "/" ++ id ++ ".json"` is the encoding of a `Metadata`
whose `FileName` is the `Filename` of the header that `c.MultipartForm()` made
of the part, unchanged by `upload`: the last path element of the client-supplied
filename, hence the client-supplied filename itself when that has no slash; and
whose `FileSize` is the byte length of the stored file written at
`storage ++ "/" ++ id`, which holds the bytes of the part. -/
theorem metadata_fidelity (lib : Lib) (storage : String) (i : Nat) (part : ClientPart)
    (e : PartEnv) (s s' : UploadState)
    (h : uploadPart lib storage i (fileHeaderOf part) e s = .next s') :
    ∃ (record : Metadata) (stored : List Byte),
      s'.world.fs (storage ++ "/" ++ e.id.String ++ ".json") =
        some (lib.MarshalIndent record "" " ") ∧
      s'.world.fs (storage ++ "/" ++ e.id.String) = some stored ∧
      record.FileName = (fileHeaderOf part).Filename ∧
      record.FileName = Base part.filename ∧
      (part.filename ≠ "" → '/' ∉ part.filename.data → record.FileName = part.filename) ∧
      stored = part.content ∧
      record.FileSize = (stored.length : Int) := by
  obtain ⟨hj, hp⟩ := uploadPart_record lib storage i (fileHeaderOf part) e s s' h
  exact ⟨_, _, hj, hp, rfl, rfl, fun hne hs => Base_of_no_slash part.filename hne hs, rfl, rfl⟩

/-- C4 amended, at the part that the client names `../b.bin`. -/
theorem metadata_fidelity_witness :
    ∃ (record : Metadata) (stored : List Byte),
      (uploadPart sampleLib "media" 0 (fileHeaderOf secondPart) (okEnv 0)
          (UploadState.init emptyWorld)).state.world.fs
          ("media" ++ "/" ++ (okEnv 0).id.String ++ ".json") =
        some (sampleLib.MarshalIndent record "" " ") ∧
      (uploadPart sampleLib "media" 0 (fileHeaderOf secondPart) (okEnv 0)
          (UploadState.init emptyWorld)).state.world.fs
          ("media" ++ "/" ++ (okEnv 0).id.String) = some stored ∧
      record.FileName = (fileHeaderOf secondPart).Filename ∧
      record.FileName = Base "../b.bin" ∧
      (secondPart.filename ≠ "" → '/' ∉ secondPart.filename.data →
        record.FileName = "../b.bin") ∧
      stored = [254, 255] ∧
      record.FileSize = (stored.length : Int) :=
  metadata_fidelity sampleLib "media" 0 secondPart (okEnv 0) (UploadState.init emptyWorld) _ rfl

/-! ### A failure in the middle of a batch -/

theorem uploadLoop_congr (lib : Lib) (storage : String) (env env' : Nat → PartEnv)
    (files : List FileHeader) (i : Nat) (s : UploadState)
    (h : ∀ j, j < files.length → env' (i + j) = env (i + j)) :
    uploadLoop lib storage env' i files s = uploadLoop lib storage env i files s := by
  induction files generalizing i s with
  | nil => rfl
  | cons f rest ih =>
    have h0 : env' i = env i := by simpa using h 0 (by simp)
    simp only [uploadLoop, h0]
    cases uploadPart lib storage i f (env i) s with
    | ret err s1 => rfl
    | next s1 =>
      simp only []
      apply ih
      intro j hj
      have := h (j + 1) (by simpa using hj)
      have e : i + 1 + j = i + (j + 1) := by omega
      rw [e]
      exact this

theorem uploadLoop_ret_append (lib : Lib) (storage : String) (env : Nat → PartEnv)
    (xs ys : List FileHeader) (i : Nat) (s s' : UploadState) (err : GoError)
    (h : uploadLoop lib storage env i xs s = .ret err s') :
    uploadLoop lib storage env i (xs ++ ys) s = .ret err s' := by
  rw [uploadLoop_append, h]

/-- The loop over the parts up to and including the first one with a failing
checked operation: it returns that part's error, and the files of the earlier
parts are in place. -/
theorem uploadLoop_take_fail (lib : Lib) (storage : String) (env : Nat → PartEnv)
    (files : List FileHeader) (s : UploadState) (k : Nat) (hk : k < files.length)
    (hprev : ∀ j, j < k → (env j).ok) (hfail : ¬ (env k).ok)
    (hd : ∀ a b, a ≤ k → b ≤ k → fileName (env a).id = fileName (env b).id → a = b) :
    ∃ err s', uploadLoop lib storage env 0 (files.take (k + 1)) s = .ret err s' ∧
      ∀ j file, j < k → files[j]? = some file →
        s'.world.fs (sprintfPath storage (fileName (env j).id)) = some file.content ∧
        s'.world.fs (sprintfJson storage (fileName (env j).id)) =
          some (recordBytes lib file (env j).now) := by
  have hlen : (files.take k).length = k := by
    rw [List.length_take]; omega
  have htake : files.take (k + 1) = files.take k ++ [files[k]] := by
    rw [List.take_succ, List.getElem?_eq_getElem hk]
    rfl
  obtain ⟨sk, hsk, -⟩ := uploadLoop_of_ok lib storage env (files.take k) 0 s
    (by intro j hj; rw [Nat.zero_add]; exact hprev j (by omega))
  obtain ⟨err, s', hs'⟩ := uploadPart_ret_of_not_ok lib storage k files[k] (env k) sk hfail
  refine ⟨err, s', ?_, ?_⟩
  · rw [htake, uploadLoop_append, hsk]
    simp only [hlen, Nat.zero_add, uploadLoop, hs']
  · intro j file hj hfile
    have hpre := uploadLoop_ok_fs lib storage env (files.take k) 0 s
      (by intro m hm; rw [Nat.zero_add]; exact hprev m (by omega))
      (by
        intro a b ha hb hab
        rw [Nat.zero_add, Nat.zero_add] at hab
        exact hd a b (by omega) (by omega) hab)
      j file (by rw [List.getElem?_take_of_lt hj]; exact hfile)
    rw [hsk, Nat.zero_add] at hpre
    have hne : fileName (env j).id ≠ fileName (env k).id := by
      intro he
      have := hd j k (by omega) (by omega) he
      omega
    have hfr := uploadPart_frame lib storage k files[k] (env k) sk
    rw [hs'] at hfr
    constructor
    · rw [← hpre.1]
      exact hfr _ (fun he => hne (sprintfPath_inj he)) (path_ne_json storage _ _)
    · rw [← hpre.2]
      exact hfr _ (fun he => path_ne_json storage _ _ he.symm) (fun he => hne (sprintfJson_inj he))

/-- C5, as stated, fails: the first of two parts is processed without error,
the copy of the second part fails, and `upload` returns that error; but both
parts drew the same identifier, so `os.Create` for the second part truncated the
stored file of the first, which no longer holds the first part's bytes. -/
theorem upload_partial_failure_counterexample :
    (collidingEnv 0).ok ∧ ¬ (collidingEnv 1).ok ∧
    (upload sampleLib "media" (requestOf [report, second]) collidingEnv emptyWorld).1 =
      .error "write: no space left on device" ∧
    (upload sampleLib "media" (requestOf [report, second]) collidingEnv emptyWorld).2.fs
        ("media" ++ "/" ++ (collidingEnv 0).id.String) = some [] ∧
    report.content ≠ [] := by
  refine ⟨by decide, by decide, by rfl, by decide, by decide⟩

/-- C5, amended. When a checked operation (open, create, copy or metadata write)
fails for the part at index `k`, the checked operations of all earlier parts
succeeded, and the identifiers drawn for the parts up to `k` are pairwise
distinct, then: `upload` returns an error, so no path list; the stored file and
the metadata record of every earlier part are on disk with their full content;
and the parts after `k` are not processed: the result and the world are the same
whatever parts follow and whatever the environment would answer for them. -/
theorem upload_partial_failure (lib : Lib) (storage : String) (c : Context)
    (env : Nat → PartEnv) (w : World) (form : Form) (k : Nat)
    (hform : c.MultipartForm = .ok form) (hk : k < (form.File "files").length)
    (hprev : ∀ j, j < k → (env j).ok) (hfail : ¬ (env k).ok)
    (hdistinct : ∀ a b, a ≤ k → b ≤ k → (env a).id.String = (env b).id.String → a = b) :
    (∃ err, (upload lib storage c env w).1 = .error err) ∧
    (∀ j file, j < k → (form.File "files")[j]? = some file →
      (upload lib storage c env w).2.fs (storage ++ "/" ++ (env j).id.String) =
        some file.content ∧
      (upload lib storage c env w).2.fs (storage ++ "/" ++ (env j).id.String ++ ".json") =
        some (recordBytes lib file (env j).now)) ∧
    (∀ (c' : Context) (form' : Form) (env' : Nat → PartEnv),
      c'.MultipartForm = .ok form' →
      (form'.File "files").take (k + 1) = (form.File "files").take (k + 1) →
      (∀ j, j ≤ k → env' j = env j) →
      upload lib storage c' env' w = upload lib storage c env w) := by
  obtain ⟨err, s', hrun, hkeep⟩ :=
    uploadLoop_take_fail lib storage env (form.File "files") (UploadState.init w) k hk hprev hfail
      (by
        intro a b ha hb hab
        rw [fileName_eq, fileName_eq] at hab
        exact hdistinct a b ha hb hab)
  have hfull : ∀ files : List FileHeader,
      files.take (k + 1) = (form.File "files").take (k + 1) →
      uploadLoop lib storage env 0 files (UploadState.init w) = .ret err s' := by
    intro files hf
    rw [← List.take_append_drop (k + 1) files, hf]
    exact uploadLoop_ret_append lib storage env _ _ 0 _ s' err hrun
  have hself := hfull (form.File "files") rfl
  have hup : upload lib storage c env w = (.error err, runDeferred s'.world s'.deferred) := by
    rw [upload_eq lib storage c env w form hform, hself]
    rfl
  have hP : ∀ u : UUID, storage ++ "/" ++ u.String = sprintfPath storage (fileName u) := by
    intro u; rw [fileName_eq]; rfl
  have hJ : ∀ u : UUID, storage ++ "/" ++ u.String ++ ".json" = sprintfJson storage (fileName u) := by
    intro u; rw [fileName_eq]; rfl
  refine ⟨⟨err, by rw [hup]⟩, ?_, ?_⟩
  · intro j file hj hfile
    rw [hup, hJ, hP]
    simp only [runDeferred_fs]
    exact hkeep j file hj hfile
  · intro c' form' env' hform' htake henv
    rw [hup, upload_eq lib storage c' env' w form' hform']
    have hlen : ((form'.File "files").take (k + 1)).length = k + 1 := by
      rw [htake, List.length_take]; omega
    have hcongr : uploadLoop lib storage env' 0 ((form'.File "files").take (k + 1))
        (UploadState.init w) = .ret err s' := by
      rw [uploadLoop_congr lib storage env env' _ 0 _
        (by intro j hj; rw [Nat.zero_add]; exact henv j (by omega)), htake]
      exact hrun
    have : uploadLoop lib storage env' 0 (form'.File "files") (UploadState.init w) =
        .ret err s' := by
      rw [← List.take_append_drop (k + 1) (form'.File "files")]
      exact uploadLoop_ret_append lib storage env' _ _ 0 _ s' err hcongr
    rw [this]
    rfl

/-- C5 amended, at a concrete batch of two parts whose second copy fails. -/
theorem upload_partial_failure_witness :
    (1 < [report, second].length ∧ (∀ j, j < 1 → (secondCopyFails j).ok) ∧
      ¬ (secondCopyFails 1).ok) ∧
    (∃ err,
      (upload sampleLib "media" (requestOf [report, second]) secondCopyFails emptyWorld).1 =
        .error err) ∧
    (upload sampleLib "media" (requestOf [report, second]) secondCopyFails emptyWorld).2.fs
        ("media" ++ "/" ++ (secondCopyFails 0).id.String) = some report.content := by
  have hprev : ∀ j, j < 1 → (secondCopyFails j).ok := by
    intro j hj
    interval_cases j
    decide
  have hfail : ¬ (secondCopyFails 1).ok := by decide
  have h := upload_partial_failure sampleLib "media" (requestOf [report, second])
    secondCopyFails emptyWorld
    { File := fun field => if field = "files" then [report, second] else [] } 1 rfl
    (by decide) hprev hfail
    (by
      intro a b ha hb
      interval_cases a <;> interval_cases b <;> decide)
  exact ⟨⟨by decide, hprev, hfail⟩, h.1, (h.2.1 0 report (by decide) rfl).1⟩

/-- C8, fails on the code. `os.MkdirAll` fails for the only part, `os.Create`
succeeds, and `upload` carries on as if nothing had happened: it answers 200
with the path, and both files are written. -/
theorem upload_ignores_mkdir_failure :
    (mkdirFails 0).mkdirErr = some "mkdir : no such file or directory" ∧
    (upload sampleLib "" (requestOf [report]) mkdirFails emptyWorld).1 =
      .ok { status := StatusOK, body := .mk ["/00000000-0000-0000-0000-000000000000"] } ∧
    (upload sampleLib "" (requestOf [report]) mkdirFails emptyWorld).2.fs
      "/00000000-0000-0000-0000-000000000000" = some report.content ∧
    ((upload sampleLib "" (requestOf [report]) mkdirFails emptyWorld).2.fs
      "/00000000-0000-0000-0000-000000000000.json").isSome = true := by
  refine ⟨by rfl, by rfl, by decide, by decide⟩

/-- The outcome of `os.MkdirAll` never reaches an iteration's result. -/
theorem uploadPart_mkdir_irrelevant (lib : Lib) (storage : String) (i : Nat) (file : FileHeader)
    (e : PartEnv) (s : UploadState) (r : Option GoError) :
    uploadPart lib storage i file { e with mkdirErr := r } s = uploadPart lib storage i file e s :=
  rfl

theorem uploadLoop_mkdir_irrelevant (lib : Lib) (storage : String) (env : Nat → PartEnv)
    (r : Nat → Option GoError) (files : List FileHeader) (i : Nat) (s : UploadState) :
    uploadLoop lib storage (fun n => { env n with mkdirErr := r n }) i files s =
      uploadLoop lib storage env i files s := by
  induction files generalizing i s with
  | nil => rfl
  | cons f rest ih =>
    simp only [uploadLoop, uploadPart_mkdir_irrelevant]
    cases uploadPart lib storage i f (env i) s with
    | next s1 => exact ih (i + 1) s1
    | ret err s1 => rfl

/-- Whatever `os.MkdirAll` answers, for whatever part, `upload` returns the same
result and leaves the same world. -/
theorem upload_mkdir_irrelevant (lib : Lib) (storage : String) (c : Context)
    (env : Nat → PartEnv) (r : Nat → Option GoError) (w : World) :
    upload lib storage c (fun n => { env n with mkdirErr := r n }) w =
      upload lib storage c env w := by
  unfold upload
  cases c.MultipartForm with
  | error err => rfl
  | ok form =>
    simp only [uploadLoop_mkdir_irrelevant]

/-! ### Open streams -/

/-- Every stream an iteration opens is registered for closing: the open handles
stay the deferred ones on top of those that were open before the call. -/
theorem uploadPart_handles (lib : Lib) (storage : String) (i : Nat) (file : FileHeader)
    (e : PartEnv) (s : UploadState) (base : List Handle)
    (h : s.world.handles = s.deferred ++ base) :
    (uploadPart lib storage i file e s).state.world.handles =
      (uploadPart lib storage i file e s).state.deferred ++ base := by
  unfold uploadPart
  cases h1 : e.openErr with
  | some err => simpa [Step.state] using h
  | none =>
    cases h2 : e.createErr with
    | some err => simp [Step.state, World.opened, h]
    | none =>
      cases h3 : e.copyErr with
      | some p => simp [Step.state, World.opened, World.put, h]
      | none =>
        cases h4 : e.writeErr with
        | some p =>
          rcases p with ⟨_ | n, err⟩ <;> simp [Step.state, World.opened, World.put, h]
        | none => simp [Step.state, World.opened, World.put, h]

theorem uploadLoop_handles (lib : Lib) (storage : String) (env : Nat → PartEnv)
    (files : List FileHeader) (i : Nat) (s : UploadState) (base : List Handle)
    (h : s.world.handles = s.deferred ++ base) :
    (uploadLoop lib storage env i files s).state.world.handles =
      (uploadLoop lib storage env i files s).state.deferred ++ base := by
  induction files generalizing i s with
  | nil => exact h
  | cons f rest ih =>
    have hp := uploadPart_handles lib storage i f (env i) s base h
    simp only [uploadLoop]
    cases hx : uploadPart lib storage i f (env i) s with
    | next s1 =>
      rw [hx] at hp
      exact ih (i + 1) s1 hp
    | ret err s1 =>
      rw [hx] at hp
      exact hp

theorem runDeferred_handles (w : World) (deferred base : List Handle)
    (h : w.handles = deferred ++ base) : (runDeferred w deferred).handles = base := by
  induction deferred generalizing w with
  | nil => simpa [runDeferred] using h
  | cons x rest ih =>
    simp only [runDeferred]
    apply ih
    simp [World.close, h]

/-- When `upload` returns, with a result or with an error, every stream it
opened has been closed. -/
theorem upload_handles_at_return (lib : Lib) (storage : String) (c : Context)
    (env : Nat → PartEnv) (w : World) : (upload lib storage c env w).2.handles = w.handles := by
  unfold upload
  cases hc : c.MultipartForm with
  | error err => rfl
  | ok form =>
    simp only []
    have h := uploadLoop_handles lib storage env (form.File "files") 0 (UploadState.init w)
      w.handles (by simp [UploadState.init])
    cases hx : uploadLoop lib storage env 0 (form.File "files") (UploadState.init w) with
    | next s =>
      rw [hx] at h
      exact runDeferred_handles _ _ _ h
    | ret err s =>
      rw [hx] at h
      exact runDeferred_handles _ _ _ h

/-- C10, fails on the code. In a batch of two parts the first iteration ends
normally and `upload` enters the second iteration in the state the first one
hands over; in that state the read stream and the write stream of the first
part are both still open, because their `Close` calls are deferred to the return
of `upload`, after which no stream is open. -/
theorem upload_streams_open_at_second_iteration :
    (∃ s, uploadPart sampleLib "media" 0 report (okEnv 0) (UploadState.init emptyWorld) =
        .next s) ∧
    upload sampleLib "media" (requestOf [report, second]) okEnv emptyWorld =
      uploadReturn (uploadLoop sampleLib "media" okEnv 1 [second]
        (uploadPart sampleLib "media" 0 report (okEnv 0) (UploadState.init emptyWorld)).state) ∧
    (uploadPart sampleLib "media" 0 report (okEnv 0)
      (UploadState.init emptyWorld)).state.world.handles = [Handle.dst 0, Handle.src 0] ∧
    (uploadPart sampleLib "media" 0 report (okEnv 0)
      (UploadState.init emptyWorld)).state.deferred = [Handle.dst 0, Handle.src 0] ∧
    (upload sampleLib "media" (requestOf [report, second]) okEnv emptyWorld).2.handles = [] := by
  refine ⟨⟨_, rfl⟩, by rfl, by rfl, by rfl, by rfl⟩

/-- The streams are scoped to the call, not to the iteration: when the parts
before index `k` have been processed, the loop has reached a state `s` in which
the read stream and the write stream of every earlier part are still open, and
`upload` goes on from `s` with the iteration for part `k`; when `upload`
returns, with a result or with an error, every stream it opened has been
closed. -/
theorem upload_streams_open_until_return (lib : Lib) (storage : String) (c : Context)
    (env : Nat → PartEnv) (w : World) (form : Form) (k : Nat)
    (hform : c.MultipartForm = .ok form) (hk : k < (form.File "files").length)
    (hprev : ∀ j, j < k → (env j).ok) :
    (∃ s, uploadLoop lib storage env 0 ((form.File "files").take k) (UploadState.init w) =
          .next s ∧
        upload lib storage c env w =
          uploadReturn (uploadLoop lib storage env k ((form.File "files").drop k) s) ∧
        ∀ j, j < k → Handle.src j ∈ s.world.handles ∧ Handle.dst j ∈ s.world.handles) ∧
    (upload lib storage c env w).2.handles = w.handles := by
  refine ⟨?_, upload_handles_at_return lib storage c env w⟩
  have hlen : ((form.File "files").take k).length = k := by
    rw [List.length_take]; omega
  obtain ⟨s, hs, -, -, hopen⟩ :=
    uploadLoop_of_ok lib storage env ((form.File "files").take k) 0 (UploadState.init w)
      (by intro j hj; rw [Nat.zero_add]; exact hprev j (by omega))
  refine ⟨s, hs, ?_, ?_⟩
  · have := uploadLoop_append lib storage env ((form.File "files").take k)
      ((form.File "files").drop k) 0 (UploadState.init w)
    rw [List.take_append_drop, hs, hlen, Nat.zero_add] at this
    rw [upload_eq lib storage c env w form hform, this]
  · intro j hj
    have := hopen j (by omega)
    rw [Nat.zero_add] at this
    exact this

/-! ## `list` -/

theorem foldl_append_imageOf (files : List FileInfo) (acc : List Image) :
    files.foldl (fun images f => images.append (imageOf f)) (GoSlice.mk acc) =
      GoSlice.mk (acc ++ files.map imageOf) := by
  induction files generalizing acc with
  | nil => simp
  | cons f rest ih =>
    have h := ih (acc ++ [imageOf f])
    simp only [List.append_assoc, List.singleton_append] at h
    simpa only [List.foldl_cons, List.map_cons] using h

/-- What `list` answers when the directory can be read: the sorted slice, entry
by entry. -/
theorem list_of_readDir (sortSlice : List FileInfo → (FileInfo → FileInfo → Bool) → List FileInfo)
    (readDir : String → Except GoError (List FileInfo)) (storage : String)
    (files : List FileInfo) (h : readDir storage = .ok files) :
    list sortSlice readDir storage =
      .ok { status := StatusOK, body := .mk ((sortSlice files lessModTime).map imageOf) } := by
  unfold list
  rw [h]
  simp only [foldl_append_imageOf, List.nil_append]

/-- The closure `list` sorts with meets the requirement of `sort.Slice`. -/
theorem lessModTime_ordering : TransitiveOrdering lessModTime := by
  refine ⟨?_, ?_, ?_⟩
  · intro a
    simp [lessModTime, Time.Before]
  · intro a b c
    simp only [lessModTime, Time.Before, decide_eq_true_eq]
    omega
  · intro a b c
    simp only [lessModTime, Time.Before, decide_eq_false_iff_not]
    omega

/-! ## `sort.Slice` keeps its promise -/

theorem lessAt_eq {α : Type} (less : α → α → Bool) (data : List α) (i j : Nat) (x y : α)
    (hi : data[i]? = some x) (hj : data[j]? = some y) : lessAt less data i j = less x y := by
  simp [lessAt, hi, hj]

theorem swapAt_length {α : Type} (data : List α) (i j : Nat) :
    (swapAt data i j).length = data.length := by
  unfold swapAt
  split <;> simp

theorem swapAt_getElem? {α : Type} (data : List α) (i j k : Nat)
    (hi : i < data.length) (hj : j < data.length) :
    (swapAt data i j)[k]? =
      if k = j then data[i]? else if k = i then data[j]? else data[k]? := by
  unfold swapAt
  rw [List.getElem?_eq_getElem hi, List.getElem?_eq_getElem hj]
  simp only []
  rw [List.getElem?_set]
  by_cases hkj : k = j
  · subst hkj
    simp [hj]
  · rw [if_neg (fun h => hkj h.symm), if_neg hkj, List.getElem?_set]
    by_cases hki : k = i
    · subst hki
      simp [hi]
    · rw [if_neg (fun h => hki h.symm), if_neg hki]

theorem set_perm_cons {α : Type} (t : List α) (n : Nat) (h y : α) (hy : t[n]? = some y) :
    (y :: t.set n h).Perm (h :: t) := by
  induction t generalizing n with
  | nil => simp at hy
  | cons c t ih =>
    cases n with
    | zero =>
      simp only [List.getElem?_cons_zero, Option.some.injEq] at hy
      subst hy
      exact List.Perm.swap _ _ _
    | succ n =>
      simp only [List.getElem?_cons_succ] at hy
      simp only [List.set_cons_succ]
      exact (List.Perm.swap c y _).trans
        ((List.Perm.cons c (ih n hy)).trans (List.Perm.swap h c _))

theorem swapAt_perm {α : Type} (data : List α) (i j : Nat) : (swapAt data i j).Perm data := by
  unfold swapAt
  cases hi : data[i]? with
  | none => exact List.Perm.refl _
  | some x =>
    cases hj : data[j]? with
    | none => exact List.Perm.refl _
    | some y =>
      simp only []
      induction data generalizing i j with
      | nil => simp at hi
      | cons c t ih =>
        cases i with
        | zero =>
          simp only [List.getElem?_cons_zero, Option.some.injEq] at hi
          subst hi
          cases j with
          | zero =>
            simp only [List.getElem?_cons_zero, Option.some.injEq] at hj
            subst hj
            simp
          | succ j =>
            simp only [List.getElem?_cons_succ] at hj
            simp only [List.set_cons_zero, List.set_cons_succ]
            exact set_perm_cons t j c y hj
        | succ i =>
          simp only [List.getElem?_cons_succ] at hi
          cases j with
          | zero =>
            simp only [List.getElem?_cons_zero, Option.some.injEq] at hj
            subst hj
            simp only [List.set_cons_succ, List.set_cons_zero]
            exact set_perm_cons t i c x hi
          | succ j =>
            simp only [List.getElem?_cons_succ] at hj
            simp only [List.set_cons_succ]
            exact List.Perm.cons c (ih i j hi hj)

/-- The upward scan of `partition_func` stops at the first element that is not
less than the pivot, having passed only elements less than it. -/
theorem scanUp_spec {α : Type} (less : α → α → Bool) (data : List α) (a j : Nat) (p : α)
    (hp : data[a]? = some p) :
    ∀ fuel i, j + 1 ≤ fuel + i → i ≤ j + 1 →
      i ≤ scanUp less data a j fuel i ∧ scanUp less data a j fuel i ≤ j + 1 ∧
      (∀ x v, data[x]? = some v → i ≤ x → x < scanUp less data a j fuel i → less v p = true) ∧
      (scanUp less data a j fuel i ≤ j →
        ∀ v, data[scanUp less data a j fuel i]? = some v → less v p = false) := by
  intro fuel
  induction fuel with
  | zero =>
    intro i h1 h2
    simp only [scanUp]
    refine ⟨Nat.le_refl _, h2, ?_, ?_⟩
    · intro x v _ h3 h4; omega
    · intro h3; omega
  | succ fuel ih =>
    intro i h1 h2
    simp only [scanUp]
    by_cases hc : i ≤ j ∧ lessAt less data i a = true
    · rw [if_pos hc]
      obtain ⟨h3, h4, h5, h6⟩ := ih (i + 1) (by omega) (by omega)
      refine ⟨by omega, h4, ?_, h6⟩
      intro x v hx hix hxs
      by_cases hxi : x = i
      · subst hxi
        rw [lessAt_eq less data x a v p hx hp] at hc
        exact hc.2
      · exact h5 x v hx (by omega) hxs
    · rw [if_neg hc]
      refine ⟨Nat.le_refl _, h2, ?_, ?_⟩
      · intro x v _ h3 h4; omega
      · intro h3 v hv
        rw [lessAt_eq less data i a v p hv hp] at hc
        cases hl : less v p with
        | false => rfl
        | true => exact absurd ⟨h3, hl⟩ hc

/-- The downward scan of `partition_func` stops at the first element that is
less than the pivot, having passed only elements not less than it. -/
theorem scanDown_spec {α : Type} (less : α → α → Bool) (data : List α) (a i : Nat) (p : α)
    (hp : data[a]? = some p) (hi : 1 ≤ i) :
    ∀ fuel j, j + 1 ≤ fuel + i → i ≤ j + 1 → j < data.length →
      scanDown less data a i fuel j ≤ j ∧ i ≤ scanDown less data a i fuel j + 1 ∧
      (∀ x v, data[x]? = some v → scanDown less data a i fuel j < x → x ≤ j →
        less v p = false) ∧
      (i ≤ scanDown less data a i fuel j →
        ∀ v, data[scanDown less data a i fuel j]? = some v → less v p = true) := by
  intro fuel
  induction fuel with
  | zero =>
    intro j h1 h2 _
    simp only [scanDown]
    refine ⟨Nat.le_refl _, h2, ?_, ?_⟩
    · intro x v _ h3 h4; omega
    · intro h3; omega
  | succ fuel ih =>
    intro j h1 h2 hjl
    simp only [scanDown]
    by_cases hc : i ≤ j ∧ lessAt less data j a = false
    · rw [if_pos hc]
      obtain ⟨h3, h4, h5, h6⟩ := ih (j - 1) (by omega) (by omega) (by omega)
      refine ⟨by omega, h4, ?_, h6⟩
      intro x v hx hsx hxj
      by_cases hxj' : x = j
      · subst hxj'
        rw [lessAt_eq less data x a v p hx hp] at hc
        exact hc.2
      · exact h5 x v hx hsx (by omega)
    · rw [if_neg hc]
      refine ⟨Nat.le_refl _, h2, ?_, ?_⟩
      · intro x v _ h3 h4; omega
      · intro h3 v hv
        rw [lessAt_eq less data j a v p hv hp] at hc
        cases hl : less v p with
        | true => rfl
        | false => exact absurd ⟨h3, hl⟩ hc

/-- The loop of `partition_func`: when it is left, the pivot is still in front,
everything behind it up to `j` is less than the pivot and everything after `j`
is not. -/
theorem partitionLoop_spec {α : Type} (less : α → α → Bool) (a : Nat) (p : α) :
    ∀ (fuel : Nat) (data : List α) (i j : Nat),
      data[a]? = some p → a < i → i ≤ j + 1 → j < data.length → j + 1 ≤ fuel + i →
      (∀ x v, data[x]? = some v → a < x → x < i → less v p = true) →
      (∀ x v, data[x]? = some v → j < x → less v p = false) →
      (partitionLoop less a fuel data i j).1.Perm data ∧
      (partitionLoop less a fuel data i j).1[a]? = some p ∧
      a ≤ (partitionLoop less a fuel data i j).2 ∧
      (partitionLoop less a fuel data i j).2 < data.length ∧
      (∀ x v, (partitionLoop less a fuel data i j).1[x]? = some v → a < x →
        x ≤ (partitionLoop less a fuel data i j).2 → less v p = true) ∧
      (∀ x v, (partitionLoop less a fuel data i j).1[x]? = some v →
        (partitionLoop less a fuel data i j).2 < x → less v p = false) := by
  intro fuel
  induction fuel with
  | zero =>
    intro data i j hp hai hij hjl hfuel hL hR
    simp only [partitionLoop]
    refine ⟨List.Perm.refl _, hp, by omega, hjl, ?_, hR⟩
    intro x v hx hax hxj
    exact hL x v hx hax (by omega)
  | succ fuel ih =>
    intro data i j hp hai hij hjl hfuel hL hR
    simp only [partitionLoop]
    obtain ⟨u1, u2, u3, u4⟩ :=
      scanUp_spec less data a j p hp data.length i (by omega) hij
    generalize scanUp less data a j data.length i = i1 at u1 u2 u3 u4 ⊢
    obtain ⟨d1, d2, d3, d4⟩ :=
      scanDown_spec less data a i1 p hp (by omega) data.length j (by omega) u2 hjl
    generalize scanDown less data a i1 data.length j = j1 at d1 d2 d3 d4 ⊢
    have hLeft : ∀ x v, data[x]? = some v → a < x → x < i1 → less v p = true := by
      intro x v hx hax hxi
      by_cases h : x < i
      · exact hL x v hx hax h
      · exact u3 x v hx (by omega) hxi
    have hRight : ∀ x v, data[x]? = some v → j1 < x → less v p = false := by
      intro x v hx hjx
      by_cases h : j < x
      · exact hR x v hx h
      · exact d3 x v hx hjx (by omega)
    by_cases hgt : i1 > j1
    · rw [if_pos hgt]
      refine ⟨List.Perm.refl _, hp, by omega, by omega, ?_, hRight⟩
      intro x v hx hax hxj
      exact hLeft x v hx hax (by omega)
    · rw [if_neg hgt]
      have hi1 : i1 < data.length := by omega
      have hj1 : j1 < data.length := by omega
      have vi := u4 (by omega) _ (List.getElem?_eq_getElem hi1)
      have vj := d4 (by omega) _ (List.getElem?_eq_getElem hj1)
      have hne : i1 ≠ j1 := by
        intro he
        subst he
        rw [vi] at vj
        exact Bool.false_ne_true vj
      have hlen := swapAt_length data i1 j1
      have hget := fun k => swapAt_getElem? data i1 j1 k hi1 hj1
      obtain ⟨r1, r2, r3, r4, r5, r6⟩ := ih (swapAt data i1 j1) (i1 + 1) (j1 - 1)
        (by rw [hget, if_neg (by omega), if_neg (by omega)]; exact hp)
        (by omega) (by omega) (by omega) (by omega)
        (by
          intro x v hx hax hxi
          rw [hget] at hx
          by_cases h1 : x = j1
          · omega
          · rw [if_neg h1] at hx
            by_cases h2 : x = i1
            · rw [if_pos h2, List.getElem?_eq_getElem hj1] at hx
              cases hx
              exact vj
            · rw [if_neg h2] at hx
              exact hLeft x v hx hax (by omega))
        (by
          intro x v hx hjx
          rw [hget] at hx
          by_cases h1 : x = j1
          · rw [if_pos h1, List.getElem?_eq_getElem hi1] at hx
            cases hx
            exact vi
          · rw [if_neg h1] at hx
            by_cases h2 : x = i1
            · omega
            · rw [if_neg h2] at hx
              exact hRight x v hx (by omega))
      exact ⟨r1.trans (swapAt_perm data i1 j1), r2, r3, by omega, r5, r6⟩

/-- What `partition_func` leaves of a slice that is not empty, for the whole
slice: a rearrangement with some element `p` at the returned place, everything
before it less than `p` and nothing after it less than `p`. -/
theorem partitionFunc_spec {α : Type} (less : α → α → Bool) (data : List α) (pivot : Nat)
    (hne : 0 < data.length) :
    ∃ p,
      (partitionFunc less data 0 data.length pivot).1.Perm data ∧
      (partitionFunc less data 0 data.length pivot).2.1 < data.length ∧
      (partitionFunc less data 0 data.length pivot).1[
        (partitionFunc less data 0 data.length pivot).2.1]? = some p ∧
      (∀ x v, (partitionFunc less data 0 data.length pivot).1[x]? = some v →
        x < (partitionFunc less data 0 data.length pivot).2.1 → less v p = true) ∧
      (∀ x v, (partitionFunc less data 0 data.length pivot).1[x]? = some v →
        (partitionFunc less data 0 data.length pivot).2.1 < x → less v p = false) := by
  have hlen0 := swapAt_length data 0 pivot
  have hne0 : 0 < (swapAt data 0 pivot).length := by omega
  generalize hd0 : swapAt data 0 pivot = d0 at hlen0 hne0
  have hperm0 : d0.Perm data := by rw [← hd0]; exact swapAt_perm data 0 pivot
  refine ⟨d0[0], ?_⟩
  have hp : d0[0]? = some d0[0] := List.getElem?_eq_getElem hne0
  generalize d0[0] = p at hp
  -- the first scans, the first swap and the loop are one more turn of the loop
  have hloop := partitionLoop_spec less 0 p (d0.length + 1) d0 1 (data.length - 1) hp
    (by omega) (by omega) (by omega) (by omega)
    (by intro x v _ h1 h2; omega)
    (by
      intro x v hx h1
      have := (List.getElem?_eq_some_iff.1 hx).1
      omega)
  have heq : partitionFunc less data 0 data.length pivot =
      (swapAt (partitionLoop less 0 (d0.length + 1) d0 1 (data.length - 1)).1
          (partitionLoop less 0 (d0.length + 1) d0 1 (data.length - 1)).2 0,
        (partitionLoop less 0 (d0.length + 1) d0 1 (data.length - 1)).2,
        decide (scanUp less d0 0 (data.length - 1) d0.length 1 >
          scanDown less d0 0 (scanUp less d0 0 (data.length - 1) d0.length 1) d0.length
            (data.length - 1))) := by
    simp only [partitionFunc, partitionLoop, hd0, Nat.zero_add]
    by_cases hgt : scanUp less d0 0 (data.length - 1) d0.length 1 >
        scanDown less d0 0 (scanUp less d0 0 (data.length - 1) d0.length 1) d0.length
          (data.length - 1)
    · simp [hgt]
    · simp [hgt, swapAt_length]
  rw [heq]
  obtain ⟨r1, r2, -, r4, r5, r6⟩ := hloop
  generalize partitionLoop less 0 (d0.length + 1) d0 1 (data.length - 1) = r at r1 r2 r4 r5 r6
  obtain ⟨e, m⟩ := r
  simp only at r1 r2 r4 r5 r6 ⊢
  have hel : e.length = d0.length := r1.length_eq
  have hm : m < e.length := by omega
  have h0 : 0 < e.length := by omega
  have hget := fun k => swapAt_getElem? e m 0 k hm h0
  refine ⟨(swapAt_perm e m 0).trans (r1.trans hperm0), by omega, ?_, ?_, ?_⟩
  · rw [hget]
    by_cases hm0 : m = 0
    · rw [if_pos hm0, hm0]; exact r2
    · rw [if_neg hm0, if_pos rfl]; exact r2
  · intro x v hx hxm
    rw [hget] at hx
    by_cases hx0 : x = 0
    · rw [if_pos hx0] at hx
      exact r5 m v hx (by omega) (Nat.le_refl _)
    · rw [if_neg hx0, if_neg (by omega)] at hx
      exact r5 x v hx (by omega) (by omega)
  · intro x v hx hmx
    rw [hget, if_neg (by omega), if_neg (by omega)] at hx
    exact r6 x v hx hmx

theorem foldl_orderedInsert_perm {α : Type} (r : α → α → Prop) [DecidableRel r]
    (data acc : List α) :
    (data.foldl (fun acc x => acc.orderedInsert r x) acc).Perm (data ++ acc) := by
  induction data generalizing acc with
  | nil => simp
  | cons x rest ih =>
    simp only [List.foldl_cons, List.cons_append]
    exact (ih _).trans
      ((List.Perm.append_left rest (List.perm_orderedInsert r x acc)).trans List.perm_middle)

theorem insertionSortFunc_perm {α : Type} (less : α → α → Bool) (data : List α) :
    (insertionSortFunc less data).Perm data := by
  unfold insertionSortFunc
  have h := foldl_orderedInsert_perm (fun a b => less a b = false) data []
  rw [List.append_nil] at h
  exact (List.reverse_perm _).trans h

theorem foldl_orderedInsert_sorted {α : Type} (r : α → α → Prop) [DecidableRel r]
    [IsTotal α r] [IsTrans α r] (data acc : List α) (h : acc.Sorted r) :
    (data.foldl (fun acc x => acc.orderedInsert r x) acc).Sorted r := by
  induction data generalizing acc with
  | nil => exact h
  | cons x rest ih =>
    simp only [List.foldl_cons]
    exact ih _ (h.orderedInsert x acc)

theorem insertionSortFunc_sorted {α : Type} (less : α → α → Bool) (h : TransitiveOrdering less)
    (data : List α) :
    (insertionSortFunc less data).Pairwise (fun a b => less b a = false) := by
  obtain ⟨hirr, htrans, hneg⟩ := h
  haveI : IsTotal α (fun a b => less a b = false) := ⟨by
    intro a b
    by_contra hc
    simp only [not_or, Bool.not_eq_false] at hc
    have := htrans a b a hc.1 hc.2
    rw [hirr a] at this
    exact Bool.false_ne_true this⟩
  haveI : IsTrans α (fun a b => less a b = false) := ⟨hneg⟩
  unfold insertionSortFunc
  rw [List.pairwise_reverse]
  exact foldl_orderedInsert_sorted (fun a b => less a b = false) data [] List.sorted_nil

theorem insertionSortRange_whole {α : Type} (less : α → α → Bool) (data : List α) :
    insertionSortRange less data 0 data.length = insertionSortFunc less data := by
  simp [insertionSortRange]

/-- After the partition, insertion sort of the two sides sorts the slice. -/
theorem sorted_sides {α : Type} (less : α → α → Bool)
    (d : List α) (m : Nat) (p : α) (hm : d[m]? = some p)
    (hL : ∀ x v, d[x]? = some v → x < m → less v p = true)
    (hR : ∀ x v, d[x]? = some v → m < x → less v p = false) :
    (insertionSortRange less (insertionSortRange less d 0 m) (m + 1) d.length).Perm d ∧
    (TransitiveOrdering less →
      (insertionSortRange less (insertionSortRange less d 0 m) (m + 1) d.length).Pairwise
        (fun a b => less b a = false)) := by
  have hmlt : m < d.length := (List.getElem?_eq_some_iff.1 hm).1
  have hpm : d[m] = p := (List.getElem?_eq_some_iff.1 hm).2
  have hdrop : d.drop m = p :: d.drop (m + 1) := by
    rw [List.drop_eq_getElem_cons hmlt, hpm]
  have hSlen : (insertionSortFunc less (d.take m)).length = m := by
    rw [(insertionSortFunc_perm less (d.take m)).length_eq, List.length_take]
    omega
  have hRlen : (d.drop (m + 1)).length = d.length - (m + 1) := List.length_drop _ _
  have step1 : insertionSortRange less d 0 m =
      insertionSortFunc less (d.take m) ++ p :: d.drop (m + 1) := by
    simp [insertionSortRange, hdrop]
  have step2 : insertionSortRange less
      (insertionSortFunc less (d.take m) ++ p :: d.drop (m + 1)) (m + 1) d.length =
      insertionSortFunc less (d.take m) ++ p :: insertionSortFunc less (d.drop (m + 1)) := by
    unfold insertionSortRange
    have e1 : (insertionSortFunc less (d.take m) ++ p :: d.drop (m + 1)).take (m + 1) =
        insertionSortFunc less (d.take m) ++ [p] := by
      rw [List.take_append_eq_append_take, hSlen]
      simp [List.take_of_length_le (Nat.le_of_eq hSlen) , List.take_of_length_le, hSlen]
    have e2 : (insertionSortFunc less (d.take m) ++ p :: d.drop (m + 1)).drop (m + 1) =
        d.drop (m + 1) := by
      rw [List.drop_append_eq_append_drop, hSlen]
      simp [List.drop_of_length_le, hSlen]
    have e3 : (insertionSortFunc less (d.take m) ++ p :: d.drop (m + 1)).drop d.length = [] := by
      apply List.drop_of_length_le
      simp [hSlen, hRlen]
      omega
    have e4 : (d.drop (m + 1)).take (d.length - (m + 1)) = d.drop (m + 1) :=
      List.take_of_length_le (Nat.le_of_eq hRlen)
    rw [e1, e2, e3, e4]
    simp
  rw [step1, step2]
  have hS := insertionSortFunc_perm less (d.take m)
  have hRp := insertionSortFunc_perm less (d.drop (m + 1))
  have hSmem : ∀ x ∈ insertionSortFunc less (d.take m), less x p = true := by
    intro x hx
    have hx' := hS.mem_iff.1 hx
    obtain ⟨n, hn⟩ := List.mem_iff_getElem?.1 hx'
    rw [List.getElem?_take] at hn
    by_cases hnm : n < m
    · rw [if_pos hnm] at hn
      exact hL n x hn hnm
    · rw [if_neg hnm] at hn
      cases hn
  have hRmem : ∀ y ∈ insertionSortFunc less (d.drop (m + 1)), less y p = false := by
    intro y hy
    have hy' := hRp.mem_iff.1 hy
    obtain ⟨n, hn⟩ := List.mem_iff_getElem?.1 hy'
    rw [List.getElem?_drop] at hn
    exact hR _ y hn (by omega)
  constructor
  · have : (insertionSortFunc less (d.take m) ++ p :: insertionSortFunc less (d.drop (m + 1))).Perm
        (d.take m ++ p :: d.drop (m + 1)) :=
      List.Perm.append hS (List.Perm.cons p hRp)
    rw [← hdrop, List.take_append_drop] at this
    exact this
  · intro h
    obtain ⟨hirr, htrans, hneg⟩ := h
    rw [List.pairwise_append]
    refine ⟨insertionSortFunc_sorted less ⟨hirr, htrans, hneg⟩ _, ?_, ?_⟩
    · rw [List.pairwise_cons]
      exact ⟨fun y hy => hRmem y hy, insertionSortFunc_sorted less ⟨hirr, htrans, hneg⟩ _⟩
    · intro x hx y hy
      have hxp := hSmem x hx
      rcases List.mem_cons.1 hy with hyp | hyR
      · subst hyp
        cases hl : less y x with
        | false => rfl
        | true =>
          have := htrans y x y hl hxp
          rw [hirr y] at this
          exact absurd this Bool.false_ne_true
      · have hyp := hRmem y hyR
        cases hl : less y x with
        | false => rfl
        | true =>
          have := htrans y x p hl hxp
          rw [hyp] at this
          exact absurd this Bool.false_ne_true

/-- Partition, then insertion sort of both sides: a sorted rearrangement. -/
theorem partition_then_sort {α : Type} (less : α → α → Bool) (d : List α) (pivot : Nat)
    (hne : 0 < d.length) :
    (insertionSortRange less
        (insertionSortRange less (partitionFunc less d 0 d.length pivot).1 0
          (partitionFunc less d 0 d.length pivot).2.1)
        ((partitionFunc less d 0 d.length pivot).2.1 + 1) d.length).Perm d ∧
    (TransitiveOrdering less →
      (insertionSortRange less
        (insertionSortRange less (partitionFunc less d 0 d.length pivot).1 0
          (partitionFunc less d 0 d.length pivot).2.1)
        ((partitionFunc less d 0 d.length pivot).2.1 + 1) d.length).Pairwise
        (fun a b => less b a = false)) := by
  obtain ⟨p, h1, -, h3, h4, h5⟩ := partitionFunc_spec less d pivot hne
  generalize partitionFunc less d 0 d.length pivot = r at h1 h3 h4 h5 ⊢
  have hlen : r.1.length = d.length := h1.length_eq
  rw [← hlen]
  constructor
  · exact (sorted_sides less r.1 r.2.1 p h3 h4 h5).1.trans h1
  · exact (sorted_sides less r.1 r.2.1 p h3 h4 h5).2

theorem scanSorted_spec {α : Type} (less : α → α → Bool) (data : List α) (b : Nat) :
    ∀ fuel i, scanSorted less data b fuel i = b →
      ∀ x, i ≤ x → x < b → lessAt less data x (x - 1) = false := by
  intro fuel
  induction fuel with
  | zero =>
    intro i h x h1 h2
    simp only [scanSorted] at h
    omega
  | succ fuel ih =>
    intro i h x h1 h2
    simp only [scanSorted] at h
    by_cases hc : i < b ∧ lessAt less data i (i - 1) = false
    · rw [if_pos hc] at h
      by_cases hx : x = i
      · subst hx; exact hc.2
      · exact ih (i + 1) h x (by omega) h2
    · rw [if_neg hc] at h
      omega

/-- A slice in which no element is less than its left neighbour is sorted. -/
theorem pairwise_of_adjacent {α : Type} (less : α → α → Bool) (h : TransitiveOrdering less)
    (data : List α)
    (hadj : ∀ x, 1 ≤ x → x < data.length → lessAt less data x (x - 1) = false) :
    data.Pairwise (fun a b => less b a = false) := by
  obtain ⟨hirr, htrans, hneg⟩ := h
  induction data with
  | nil => exact List.Pairwise.nil
  | cons c t ih =>
    have ht : t.Pairwise (fun a b => less b a = false) := by
      apply ih
      intro x h1 h2
      have := hadj (x + 1) (by omega) (by simpa using h2)
      have e : x + 1 - 1 = (x - 1) + 1 := by omega
      rw [e] at this
      simpa [lessAt] using this
    rw [List.pairwise_cons]
    refine ⟨?_, ht⟩
    cases t with
    | nil => intro y hy; simp at hy
    | cons d t' =>
      have hdc : less d c = false := by
        have := hadj 1 (by omega) (by simp)
        simpa [lessAt] using this
      intro y hy
      rcases List.mem_cons.1 hy with hyd | hyt
      · subst hyd; exact hdc
      · have hyd : less y d = false := (List.pairwise_cons.1 ht).1 y hyt
        exact hneg y d c hyd hdc

theorem reverseRangeFunc_whole {α : Type} (data : List α) :
    reverseRangeFunc data 0 data.length = data.reverse := by
  simp [reverseRangeFunc]

/-- The sort model keeps what `sort.Slice` promises: it rearranges the slice,
and sorts it when `less` is a transitive ordering. -/
theorem goSortSlice_spec {α : Type} : SortSliceSpec (goSortSlice (α := α)) := by
  have key : ∀ (data : List α) (less : α → α → Bool),
      (goSortSlice data less).Perm data ∧
      (TransitiveOrdering less →
        (goSortSlice data less).Pairwise (fun a b => less b a = false)) := by
    intro data less
    unfold goSortSlice
    simp only [Nat.sub_zero]
    by_cases h12 : data.length ≤ 12
    · rw [if_pos h12, insertionSortRange_whole]
      exact ⟨insertionSortFunc_perm less data, fun h => insertionSortFunc_sorted less h data⟩
    · rw [if_neg h12]
      generalize choosePivotFunc less data 0 data.length = p
      have hq : ∀ q : List α × Nat × SortedHint,
          q = (if p.2 = SortedHint.decreasingHint then
              (reverseRangeFunc data 0 data.length, data.length - 1 - p.1,
                SortedHint.increasingHint)
            else (data, p.1, p.2)) → q.1.Perm data := by
        intro q hq
        by_cases hd : p.2 = SortedHint.decreasingHint
        · rw [if_pos hd] at hq
          rw [hq, reverseRangeFunc_whole]
          exact List.reverse_perm data
        · rw [if_neg hd] at hq
          rw [hq]
      generalize hqd : (if p.2 = SortedHint.decreasingHint then
              (reverseRangeFunc data 0 data.length, data.length - 1 - p.1,
                SortedHint.increasingHint)
            else (data, p.1, p.2)) = q
      have hperm := hq q hqd.symm
      have hlen : q.1.length = data.length := hperm.length_eq
      by_cases hs : q.2.2 = SortedHint.increasingHint ∧
          partialInsertionSortFunc less q.1 0 data.length = true
      · rw [if_pos hs]
        refine ⟨hperm, fun h => pairwise_of_adjacent less h q.1 ?_⟩
        intro x h1 h2
        have hb := hs.2
        unfold partialInsertionSortFunc at hb
        rw [beq_iff_eq] at hb
        exact scanSorted_spec less q.1 data.length q.1.length (0 + 1) hb x (by omega) (by omega)
      · rw [if_neg hs, ← hlen]
        have h := partition_then_sort less q.1 q.2.1 (by omega)
        exact ⟨h.1.trans hperm, h.2⟩
  exact ⟨fun xs less => (key xs less).1, fun xs less h => (key xs less).2 h⟩

/-- C6. Listing is the sorted directory: when the storage root can be read,
`list` answers 200 with exactly one entry per directory entry: the answer is a
rearrangement `sorted` of the enumeration, entry by entry, each image carrying
the name, the modification time, the size and the directory flag of its file;
modification times never decrease from first to last; an empty directory gives
the empty array (a slice that is not nil), not an error.  `hspec` is what
`sort.Slice` promises. -/
theorem list_sorted_directory
    (sortSlice : List FileInfo → (FileInfo → FileInfo → Bool) → List FileInfo)
    (hspec : SortSliceSpec sortSlice)
    (readDir : String → Except GoError (List FileInfo)) (storage : String)
    (files : List FileInfo) (hread : readDir storage = .ok files) :
    ∃ (sorted : List FileInfo) (images : List Image),
      list sortSlice readDir storage = .ok { status := StatusOK, body := .mk images } ∧
      images = sorted.map (fun f =>
        { Name := f.Name, Time := f.ModTime, Size := f.Size, IsDirectory := f.IsDir }) ∧
      sorted.Perm files ∧
      images.Pairwise (fun a b => a.Time.unixNano ≤ b.Time.unixNano) ∧
      (files = [] → images = []) := by
  refine ⟨sortSlice files lessModTime, _, list_of_readDir sortSlice readDir storage files hread,
    rfl, hspec.perm files lessModTime, ?_, ?_⟩
  · rw [List.pairwise_map]
    refine (hspec.sorted files lessModTime lessModTime_ordering).imp ?_
    intro a b hab
    simp only [lessModTime, Time.Before, decide_eq_false_iff_not, not_lt] at hab
    exact hab
  · intro he
    subst he
    rw [List.Perm.eq_nil (hspec.perm [] lessModTime)]
    rfl

/-- C6, at the directory of thirteen entries, with `goSortSlice` for
`sort.Slice`. -/
theorem list_sorted_directory_witness :
    SortSliceSpec (goSortSlice (α := FileInfo)) ∧
    ∃ (sorted : List FileInfo) (images : List Image),
      list goSortSlice (fun _ => .ok thirteenEntries) "media" =
        .ok { status := StatusOK, body := .mk images } ∧
      images = sorted.map (fun f =>
        { Name := f.Name, Time := f.ModTime, Size := f.Size, IsDirectory := f.IsDir }) ∧
      sorted.Perm thirteenEntries ∧
      images.Pairwise (fun a b => a.Time.unixNano ≤ b.Time.unixNano) ∧
      (thirteenEntries = [] → images = []) :=
  ⟨goSortSlice_spec,
   list_sorted_directory goSortSlice goSortSlice_spec (fun _ => .ok thirteenEntries) "media"
     thirteenEntries rfl⟩

/-- What `list` answers for the directory of seven entries and for the empty
directory, entry by entry. -/
theorem list_examples :
    list goSortSlice (fun _ => .ok sevenEntries) "media" =
      .ok { status := StatusOK
            body := .mk
              [ { Name := "g", Time := { unixNano := 1 }, Size := 7, IsDirectory := false },
                { Name := "a", Time := { unixNano := 2 }, Size := 1, IsDirectory := false },
                { Name := "b", Time := { unixNano := 2 }, Size := 2, IsDirectory := false },
                { Name := "c", Time := { unixNano := 3 }, Size := 3, IsDirectory := false },
                { Name := "d", Time := { unixNano := 3 }, Size := 4, IsDirectory := true },
                { Name := "e", Time := { unixNano := 3 }, Size := 5, IsDirectory := false },
                { Name := "f", Time := { unixNano := 3 }, Size := 6, IsDirectory := false } ] } ∧
    list goSortSlice (fun _ => .ok []) "media" = .ok { status := StatusOK, body := .mk [] } ∧
    list goSortSlice (fun _ => .error "open media: no such file or directory") "media" =
      .error "open media: no such file or directory" := by
  refine ⟨by rfl, by rfl, by rfl⟩

/-- On a slice of at most 12 elements `sort.Slice` is the insertion sort. -/
theorem goSortSlice_upTo12 {α : Type} (data : List α) (less : α → α → Bool)
    (h : data.length ≤ 12) : goSortSlice data less = insertionSortFunc less data := by
  unfold goSortSlice insertionSortRange
  simp [h]

/-- C7, as stated, fails.  In a directory of thirteen entries `a` comes before
`g` in the enumeration and both have the modification time 50, yet `list`
returns `g` before `a`: `sort.Slice` picks `g` as its pivot, swaps it to the
front, and puts it back in front of everything that is not earlier than it. -/
theorem list_stable_counterexample :
    thirteenEntries.map (fun f => (f.Name, f.ModTime.unixNano)) =
      [("a", 50), ("b", 10), ("c", 20), ("d", 30), ("e", 40), ("f", 45), ("g", 50), ("h", 60),
        ("i", 70), ("j", 80), ("k", 90), ("l", 100), ("m", 110)] ∧
    (list goSortSlice (fun _ => .ok thirteenEntries) "media").map
        (fun r => r.body.elems.map (fun im => (im.Name, im.Time.unixNano))) =
      .ok [("b", 10), ("c", 20), ("d", 30), ("e", 40), ("f", 45), ("g", 50), ("a", 50), ("h", 60),
        ("i", 70), ("j", 80), ("k", 90), ("l", 100), ("m", 110)] := by
  refine ⟨by decide, by rfl⟩

/-- C7, amended. The answer of `list` is a rearrangement `sorted` of the
enumeration, entry by entry, in which, for every modification time, the entries
of that time are the entries of that time in the enumeration, each exactly once,
in an order that `sort.Slice` is free to choose. -/
theorem list_keeps_entries_of_each_time
    (sortSlice : List FileInfo → (FileInfo → FileInfo → Bool) → List FileInfo)
    (hspec : SortSliceSpec sortSlice)
    (readDir : String → Except GoError (List FileInfo)) (storage : String)
    (files : List FileInfo) (hread : readDir storage = .ok files) :
    ∃ sorted : List FileInfo,
      list sortSlice readDir storage =
        .ok { status := StatusOK
              body := .mk (sorted.map (fun f =>
                { Name := f.Name, Time := f.ModTime, Size := f.Size, IsDirectory := f.IsDir })) } ∧
      ∀ t : Time, (sorted.filter (fun f => decide (f.ModTime = t))).Perm
        (files.filter (fun f => decide (f.ModTime = t))) := by
  refine ⟨sortSlice files lessModTime, list_of_readDir sortSlice readDir storage files hread, ?_⟩
  intro t
  exact (hspec.perm files lessModTime).filter _

/-- C7 amended, at the directory of thirteen entries, with `goSortSlice` for
`sort.Slice`. -/
theorem list_keeps_entries_of_each_time_witness :
    SortSliceSpec (goSortSlice (α := FileInfo)) ∧
    ∃ sorted : List FileInfo,
      list goSortSlice (fun _ => .ok thirteenEntries) "media" =
        .ok { status := StatusOK
              body := .mk (sorted.map (fun f =>
                { Name := f.Name, Time := f.ModTime, Size := f.Size, IsDirectory := f.IsDir })) } ∧
      ∀ t : Time, (sorted.filter (fun f => decide (f.ModTime = t))).Perm
        (thirteenEntries.filter (fun f => decide (f.ModTime = t))) :=
  ⟨goSortSlice_spec,
   list_keeps_entries_of_each_time goSortSlice goSortSlice_spec
     (fun _ => .ok thirteenEntries) "media" thirteenEntries rfl⟩

/-! ## The BasicAuth validator -/

theorem foldl_xor_self (x : List Byte) :
    (x.zip x).foldl (fun v p => v ||| (p.1 ^^^ p.2)) 0 = 0 := by
  induction x with
  | nil => rfl
  | cons a rest ih => simpa using ih

/-- Comparing a byte string with itself gives 1. -/
theorem ConstantTimeCompare_self (x : List Byte) : ConstantTimeCompare x x = 1 := by
  unfold ConstantTimeCompare
  rw [if_neg (by simp), foldl_xor_self]
  rfl

/-- C9. The credential check accepts everything: whatever the configured
username and password, when authentication is enabled the validator that `main`
installs returns `(true, nil)` for every supplied username and password. -/
theorem basicAuth_accepts_everything (g : Globals) (henabled : g.enableAuth = true) :
    ∃ validator, installedValidator g = some validator ∧
      ∀ (username password : String) (c : Context),
        validator username password c = (true, none) := by
  refine ⟨basicAuthValidator g, by simp [installedValidator, henabled], ?_⟩
  intro username password c
  simp [basicAuthValidator, ConstantTimeCompare_self]

/-- C9, at the default credentials `user` / `pass`. -/
theorem basicAuth_accepts_everything_witness :
    authEnabled.enableAuth = true ∧
    ∃ validator, installedValidator authEnabled = some validator ∧
      ∀ (username password : String) (c : Context),
        validator username password c = (true, none) :=
  ⟨rfl, basicAuth_accepts_everything authEnabled rfl⟩

end Imgur
